import Mathlib

/-!
Verification of the audit-log-filter provider core: the JSON definition
validator and canonicalizer (`internal/provider/filter_definition_validation.go`
and `normalizeJSON`), and the Create/Update orchestration of
`AuditLogFilterResource` against a modelled MySQL store.

The JSON layer models Go's `encoding/json` as used by the provider:
`json.Unmarshal` into `any` (maps for objects, last duplicate key wins),
and `json.Marshal` of such a value (keys sorted, compact output, HTML-escaping
of `<`, `>`, `&`, and of control characters).  JSON numbers are modelled as
arbitrary-precision integers: the provider's filter grammar uses no fractional
or exponent literals, and float64 formatting is outside this embedding.
Objects are represented in their canonical form: association lists strictly
sorted by key, which is the deterministic image of Go's unordered map under
`json.Marshal`'s key sorting.
-/

namespace AuditFilter

/-- A parsed JSON document, as produced by `json.Unmarshal` into `any`:
`null`, booleans, numbers (modelled as integers), strings, arrays, and
objects (association lists; canonically key-sorted). -/
inductive Json where
  | null
  | bool (b : Bool)
  | num (n : Int)
  | str (s : String)
  | arr (elems : List Json)
  | obj (fields : List (String × Json))

/-! ## Lexical helpers -/

/-- JSON whitespace, as accepted by Go's scanner. -/
def isWs (c : Char) : Bool := c == ' ' || c == '\t' || c == '\n' || c == '\r'

/-- Drop leading JSON whitespace. -/
def skipWs : List Char → List Char
  | c :: cs => if isWs c then skipWs cs else c :: cs
  | [] => []

/-- Decimal digit test. -/
def isDigitCh (c : Char) : Bool := '0' ≤ c && c ≤ '9'

/-- Value of a decimal digit character. -/
def digitVal (c : Char) : Nat := c.toNat - '0'.toNat

/-- Split off the maximal leading run of decimal digits. -/
def takeDigits : List Char → List Char × List Char
  | c :: cs =>
    if isDigitCh c then
      let p := takeDigits cs
      (c :: p.1, p.2)
    else ([], c :: cs)
  | [] => ([], [])

/-- Numeric value of a digit run, most significant first. -/
def digitsVal (ds : List Char) : Nat :=
  ds.foldl (fun a c => a * 10 + digitVal c) 0

/-- Value of a hexadecimal digit character, if it is one. -/
def hexDigitVal (c : Char) : Option Nat :=
  if isDigitCh c then some (digitVal c)
  else if 'a' ≤ c && c ≤ 'f' then some (10 + (c.toNat - 'a'.toNat))
  else if 'A' ≤ c && c ≤ 'F' then some (10 + (c.toNat - 'A'.toNat))
  else none

/-- Value of four hexadecimal digits (the `XXXX` of a `\uXXXX` escape). -/
def hexQuad (a b c d : Char) : Option Nat :=
  match hexDigitVal a, hexDigitVal b, hexDigitVal c, hexDigitVal d with
  | some va, some vb, some vc, some vd => some (((va * 16 + vb) * 16 + vc) * 16 + vd)
  | _, _, _, _ => none

/-- The Unicode replacement character U+FFFD, written by Go's decoder for
invalid surrogate escapes. -/
def repChar : Char := Char.ofNat 0xFFFD

/-- Single-character escapes accepted after a backslash (Go's `unquote`). -/
def unescapeChar : Char → Option Char
  | '"' => some '"'
  | '\\' => some '\\'
  | '/' => some '/'
  | 'b' => some (Char.ofNat 8)
  | 'f' => some (Char.ofNat 12)
  | 'n' => some '\n'
  | 'r' => some '\r'
  | 't' => some '\t'
  | _ => none

/-- Parse the body of a JSON string after the opening quote, following Go's
`encoding/json` unquoting: the eight single-character escapes, `\uXXXX`
(with surrogate pairs combined, and lone or mismatched surrogates replaced
by U+FFFD), and rejection of unescaped control characters below U+0020.
Fuel-structural (a fuel of the input length suffices, since every step
consumes at least one character). -/
def parseStringBody (fuel : Nat) (cs : List Char) : Option (List Char × List Char) :=
  match fuel with
  | 0 => none
  | fuel + 1 =>
    match cs with
    | [] => none
    | c :: rest =>
      if c = '"' then some ([], rest)
      else if c = '\\' then
        match rest with
        | 'u' :: a :: b :: d :: e :: rest2 =>
          match hexQuad a b d e with
          | none => none
          | some n =>
            if n < 0xD800 || 0xE000 ≤ n then
              match parseStringBody fuel rest2 with
              | some (s, r) => some (Char.ofNat n :: s, r)
              | none => none
            else
              match rest2 with
              | '\\' :: 'u' :: a2 :: b2 :: c2 :: d2 :: rest3 =>
                match hexQuad a2 b2 c2 d2 with
                | some m =>
                  if n < 0xDC00 && (0xDC00 ≤ m && m < 0xE000) then
                    match parseStringBody fuel rest3 with
                    | some (s, r) =>
                      some (Char.ofNat (0x10000 + (n - 0xD800) * 0x400 + (m - 0xDC00)) :: s, r)
                    | none => none
                  else
                    match parseStringBody fuel ('\\' :: 'u' :: a2 :: b2 :: c2 :: d2 :: rest3) with
                    | some (s, r) => some (repChar :: s, r)
                    | none => none
                | none =>
                  match parseStringBody fuel ('\\' :: 'u' :: a2 :: b2 :: c2 :: d2 :: rest3) with
                  | some (s, r) => some (repChar :: s, r)
                  | none => none
              | _ =>
                match parseStringBody fuel rest2 with
                | some (s, r) => some (repChar :: s, r)
                | none => none
        | e :: rest2 =>
          match unescapeChar e with
          | some ch =>
            match parseStringBody fuel rest2 with
            | some (s, r) => some (ch :: s, r)
            | none => none
          | none => none
        | [] => none
      else if c.toNat < 0x20 then none
      else
        match parseStringBody fuel rest with
        | some (s, r) => some (c :: s, r)
        | none => none

/-- Digit-run sanity per Go's number grammar: nonempty, and no leading zero
unless the number is exactly `0`. -/
def digitsOk (ds : List Char) : Bool :=
  match ds with
  | [] => false
  | c :: t => if c = '0' then t.isEmpty else true

/-- Parse a JSON integer literal (optional minus sign, then digits, no
leading zeros). Fractional and exponent forms are outside the model. -/
def parseNum (cs : List Char) : Option (Int × List Char) :=
  match cs with
  | '-' :: rest =>
    let p := takeDigits rest
    if digitsOk p.1 then some (-(digitsVal p.1 : Int), p.2) else none
  | _ =>
    let p := takeDigits cs
    if digitsOk p.1 then some ((digitsVal p.1 : Int), p.2) else none

/-- Lexicographic comparison of character lists by code point, which for
UTF-8 encoded text coincides with Go's bytewise `<` on strings (the order
`json.Marshal` sorts object keys by). -/
def charListLt : List Char → List Char → Bool
  | [], [] => false
  | [], _ :: _ => true
  | _ :: _, [] => false
  | a :: as, b :: bs =>
    if a.toNat < b.toNat then true
    else if b.toNat < a.toNat then false
    else charListLt as bs

/-- String comparison: Go's `<` on the UTF-8 bytes. -/
def strLt (a b : String) : Bool := charListLt a.data b.data

/-- Ordered insertion of a key/value pair into a key-sorted association list,
replacing the value if the key is already present.  This is the canonical-form
image of one assignment into Go's `map[string]any` during decoding: a later
duplicate key overwrites an earlier one. -/
def insertKey (k : String) (v : Json) : List (String × Json) → List (String × Json)
  | [] => [(k, v)]
  | (k2, v2) :: rest =>
    if strLt k k2 then (k, v) :: (k2, v2) :: rest
    else if k = k2 then (k, v) :: rest
    else (k2, v2) :: insertKey k v rest

mutual

/-- Parse one JSON value (no leading whitespace), fuel-structural.
Mirrors Go's `encoding/json` decoding into `any`. -/
def parseValue (fuel : Nat) (cs : List Char) : Option (Json × List Char) :=
  match fuel with
  | 0 => none
  | fuel + 1 =>
    match cs with
    | 'n' :: 'u' :: 'l' :: 'l' :: r => some (.null, r)
    | 't' :: 'r' :: 'u' :: 'e' :: r => some (.bool true, r)
    | 'f' :: 'a' :: 'l' :: 's' :: 'e' :: r => some (.bool false, r)
    | '"' :: r =>
      match parseStringBody (r.length + 1) r with
      | some (s, r2) => some (.str (String.mk s), r2)
      | none => none
    | '[' :: r =>
      match skipWs r with
      | [] => none
      | c :: r2 =>
        if c = ']' then some (.arr [], r2)
        else
          match parseItems fuel (c :: r2) with
          | some (es, r3) => some (.arr es, r3)
          | none => none
    | '{' :: r =>
      match skipWs r with
      | [] => none
      | c :: r2 =>
        if c = '}' then some (.obj [], r2)
        else
          match parseMembers fuel (c :: r2) [] with
          | some (ms, r3) => some (.obj ms, r3)
          | none => none
    | _ =>
      match parseNum cs with
      | some (n, r) => some (.num n, r)
      | none => none

/-- Parse one or more comma-separated array elements up to `]`. -/
def parseItems (fuel : Nat) (cs : List Char) : Option (List Json × List Char) :=
  match fuel with
  | 0 => none
  | fuel + 1 =>
    match parseValue fuel (skipWs cs) with
    | none => none
    | some (v, r) =>
      match skipWs r with
      | ',' :: r2 =>
        match parseItems fuel r2 with
        | some (es, r3) => some (v :: es, r3)
        | none => none
      | ']' :: r2 => some ([v], r2)
      | _ => none

/-- Parse one or more comma-separated object members up to `}`, accumulating
into a canonical (key-sorted, last-duplicate-wins) association list. -/
def parseMembers (fuel : Nat) (cs : List Char) (acc : List (String × Json)) :
    Option (List (String × Json) × List Char) :=
  match fuel with
  | 0 => none
  | fuel + 1 =>
    match skipWs cs with
    | '"' :: r =>
      match parseStringBody (r.length + 1) r with
      | none => none
      | some (k, r1) =>
        match skipWs r1 with
        | ':' :: r2 =>
          match parseValue fuel (skipWs r2) with
          | none => none
          | some (v, r3) =>
            match skipWs r3 with
            | ',' :: r4 => parseMembers fuel r4 (insertKey (String.mk k) v acc)
            | '}' :: r4 => some (insertKey (String.mk k) v acc, r4)
            | _ => none
        | _ => none
    | _ => none

end

/-- Parse a complete JSON document: a single value surrounded by optional
whitespace, as `json.Unmarshal` requires.  `none` models a decode error. -/
def parseDoc (s : String) : Option Json :=
  let cs := skipWs s.data
  match parseValue (cs.length + 1) cs with
  | some (v, rest) => if skipWs rest = [] then some v else none
  | none => none

/-! ## Rendering (Go's `json.Marshal` of a decoded value) -/

/-- Lowercase hexadecimal digit character for `n < 16`. -/
def hexDigitCh (n : Nat) : Char :=
  if n < 10 then Char.ofNat ('0'.toNat + n) else Char.ofNat ('a'.toNat + n - 10)

/-- Escape one character as Go's encoder does with HTML escaping on (the
`json.Marshal` default): `"`, `\`, newline, carriage return and tab get
two-character escapes; other control characters below U+0020 get `\u00xx`;
`<`, `>`, `&` get `<`, `>`, `&`; U+2028/U+2029 get ` `
and ` `; everything else is emitted literally. -/
def escapeChar (c : Char) : List Char :=
  if c = '"' then ['\\', '"']
  else if c = '\\' then ['\\', '\\']
  else if c = '\n' then ['\\', 'n']
  else if c = '\r' then ['\\', 'r']
  else if c = '\t' then ['\\', 't']
  else if c.toNat < 0x20 then
    ['\\', 'u', '0', '0', hexDigitCh (c.toNat / 16), hexDigitCh (c.toNat % 16)]
  else if c = '<' then ['\\', 'u', '0', '0', '3', 'c']
  else if c = '>' then ['\\', 'u', '0', '0', '3', 'e']
  else if c = '&' then ['\\', 'u', '0', '0', '2', '6']
  else if c.toNat = 0x2028 then ['\\', 'u', '2', '0', '2', '8']
  else if c.toNat = 0x2029 then ['\\', 'u', '2', '0', '2', '9']
  else [c]

/-- Escape every character of a string body. -/
def escapeList : List Char → List Char
  | [] => []
  | c :: cs => escapeChar c ++ escapeList cs

/-- Render a JSON string literal including its quotes. -/
def renderString (s : String) : List Char :=
  '"' :: (escapeList s.data ++ ['"'])

/-- Decimal digit characters of `n`, most significant first, prepended to
`acc`; fuel-structural so that it evaluates in the kernel. -/
def natCharsAux : Nat → Nat → List Char → List Char
  | 0, _, acc => acc
  | fuel + 1, n, acc =>
    if n < 10 then Char.ofNat ('0'.toNat + n) :: acc
    else natCharsAux fuel (n / 10) (Char.ofNat ('0'.toNat + n % 10) :: acc)

/-- Decimal digit characters of a natural number, most significant first. -/
def natChars (n : Nat) : List Char := natCharsAux (n + 1) n []

/-- Decimal rendering of an integer: optional minus sign, then digits. -/
def intChars (i : Int) : List Char :=
  if i < 0 then '-' :: natChars i.natAbs else natChars i.natAbs

mutual

/-- Render a decoded value back to compact JSON text, as `json.Marshal` does:
object fields in (canonical) key order, no whitespace, escaped strings. -/
def render : Json → List Char
  | .null => 'n' :: ['u', 'l', 'l']
  | .bool true => 't' :: ['r', 'u', 'e']
  | .bool false => 'f' :: ['a', 'l', 's', 'e']
  | .num n => intChars n
  | .str s => renderString s
  | .arr es => '[' :: (renderItems es ++ [']'])
  | .obj ms => '{' :: (renderMembers ms ++ ['}'])

/-- Comma-separated renderings of array elements. -/
def renderItems : List Json → List Char
  | [] => []
  | [e] => render e
  | e :: es => render e ++ ',' :: renderItems es

/-- Comma-separated renderings of object members (`"key":value`). -/
def renderMembers : List (String × Json) → List Char
  | [] => []
  | [(k, v)] => renderString k ++ ':' :: render v
  | (k, v) :: ms => renderString k ++ ':' :: render v ++ ',' :: renderMembers ms

end

/-- Render a decoded value to a JSON `String`. -/
def renderJson (v : Json) : String := String.mk (render v)

/-- The provider's `normalizeJSON`: `json.Unmarshal` into `any`, then
`json.Marshal` the result; `none` models the error return. -/
def normalizeJSON (input : String) : Option String :=
  match parseDoc input with
  | none => none
  | some v => some (renderJson v)

/-! ## The definition validator (`filter_definition_validation.go`) -/

/-- The four reserved logical operator keys, in the order the validator
inspects them. -/
def operatorKeys : List String := ["and", "or", "not", "field"]

/-- Association-list lookup, modelling Go map indexing (canonical lists have
unique keys, so first match is the only match). -/
def lookupField : List (String × Json) → String → Option Json
  | [], _ => none
  | (k, v) :: tl, key => if k = key then some v else lookupField tl key

/-- The operator keys present in an object node, in `operatorKeys` order
(mirrors the `present` slice built by `validateConditionObject`). -/
def presentOps (object : List (String × Json)) : List String :=
  operatorKeys.filter (fun k => (lookupField object k).isSome)

/-- Structured form of the errors `validateConditionObject` returns; the
message text of each is `condErrMessage`. -/
inductive CondErr where
  | multipleOperators (path : String) (present : List String)
  | operatorNotArray (path op : String)
  | emptyOperatorArray (path op : String)
  | elementNotObject (path op : String) (i : Nat)
  | notValueNotObject (path : String)
  | fieldValueNotObject (path : String)

/-- The `fmt.Errorf` text of each condition-walk error. -/
def condErrMessage : CondErr → String
  | .multipleOperators path present =>
    path ++ " contains multiple logical operators (" ++ String.intercalate ", " present ++
      "); each condition object must contain exactly one of and, or, not, field"
  | .operatorNotArray path op => path ++ "." ++ op ++ " must be an array of condition objects"
  | .emptyOperatorArray path op => path ++ "." ++ op ++ " must contain at least one condition object"
  | .elementNotObject path op i =>
    path ++ "." ++ op ++ "[" ++ toString i ++ "] must be a condition object"
  | .notValueNotObject path => path ++ ".not must be a condition object"
  | .fieldValueNotObject path => path ++ ".field must be an object"

mutual

/-- Weight of a value for the validator's fuel: scalars are 1, an object
node weighs 2 (its walk passes through two functions). -/
def jsonSize : Json → Nat
  | .arr es => 1 + itemsSize es
  | .obj ms => 2 + membersSize ms
  | _ => 1

/-- Summed weight of array elements. -/
def itemsSize : List Json → Nat
  | [] => 0
  | v :: vs => 1 + jsonSize v + itemsSize vs

/-- Summed weight of object member values. -/
def membersSize : List (String × Json) → Nat
  | [] => 0
  | (_, v) :: ms => 1 + jsonSize v + membersSize ms

end

mutual

/-- The recursive walk `validateConditionTree`: objects go through
`validateConditionObject`, arrays recurse element-wise with `[i]` path
segments, scalars pass.  Fuel-structural; a fuel above `jsonSize` of the
value suffices, and the top-level entry point supplies it. -/
def validateConditionTree (fuel : Nat) : Json → String → Except CondErr Unit :=
  match fuel with
  | 0 => fun _ _ => .ok ()
  | fuel + 1 => fun v path =>
    match v with
    | .obj fields => validateConditionObject fuel fields path
    | .arr items => validateTreeItems fuel items path 0
    | _ => .ok ()

/-- The array loop inside `validateConditionTree`, short-circuiting on the
first error, with the running element index `i`. -/
def validateTreeItems (fuel : Nat) : List Json → String → Nat → Except CondErr Unit :=
  match fuel with
  | 0 => fun _ _ _ => .ok ()
  | fuel + 1 => fun l path i =>
    match l with
    | [] => .ok ()
    | v :: vs =>
      match validateConditionTree fuel v (path ++ "[" ++ toString i ++ "]") with
      | .error e => .error e
      | .ok _ => validateTreeItems fuel vs path (i + 1)

/-- The `for i, expression := range expressions` loop of the `and`/`or`
branch: each element must be an object, then is recursed into. -/
def validateOperandArray (fuel : Nat) : List Json → String → String → Nat → Except CondErr Unit :=
  match fuel with
  | 0 => fun _ _ _ _ => .ok ()
  | fuel + 1 => fun l path op i =>
    match l with
    | [] => .ok ()
    | v :: vs =>
      match v with
      | .obj fields =>
        match validateConditionObject fuel fields
            (path ++ "." ++ op ++ "[" ++ toString i ++ "]") with
        | .error e => .error e
        | .ok _ => validateOperandArray fuel vs path op (i + 1)
      | _ => .error (.elementNotObject path op i)

/-- The `for key, child := range object` loop reached only when no operator
key is present.  Go iterates the map in unspecified order; the model fixes
the canonical (sorted-key) order, which never changes whether an error
exists, only which of several errors is reported first. -/
def validateFieldsWalk (fuel : Nat) : List (String × Json) → String → Except CondErr Unit :=
  match fuel with
  | 0 => fun _ _ => .ok ()
  | fuel + 1 => fun l path =>
    match l with
    | [] => .ok ()
    | (key, child) :: tl =>
      match validateConditionTree fuel child (path ++ "." ++ key) with
      | .error e => .error e
      | .ok _ => validateFieldsWalk fuel tl path

/-- `validateConditionObject`: if any of `and`/`or`/`not`/`field` is present
there must be exactly one, whose shape is checked (with recursion only into
that operator's value); otherwise every member is recursed into. -/
def validateConditionObject (fuel : Nat) : List (String × Json) → String → Except CondErr Unit :=
  match fuel with
  | 0 => fun _ _ => .ok ()
  | fuel + 1 => fun object path =>
    match presentOps object with
    | [] => validateFieldsWalk fuel object path
    | [op] =>
      match lookupField object op with
      | none => .ok ()
      | some opVal =>
        if op = "and" ∨ op = "or" then
          match opVal with
          | .arr expressions =>
            if expressions.isEmpty then .error (.emptyOperatorArray path op)
            else validateOperandArray fuel expressions path op 0
          | _ => .error (.operatorNotArray path op)
        else if op = "not" then
          match opVal with
          | .obj fields => validateConditionObject fuel fields (path ++ ".not")
          | _ => .error (.notValueNotObject path)
        else
          match opVal with
          | .obj _ => .ok ()
          | _ => .error (.fieldValueNotObject path)
    | _ :: _ :: _ => .error (.multipleOperators path (presentOps object))

end

/-- The condition walk of a whole parsed document, from the root with path
`$` and sufficient fuel. -/
def validateTree (parsed : Json) : Except CondErr Unit :=
  validateConditionTree (jsonSize parsed + 1) parsed "$"

/-- Structured form of the errors `validateAuditLogFilterDefinition` returns.
`malformedJSON` abstracts the wrapped `encoding/json` error text, which the
model does not reproduce. -/
inductive ValErr where
  | malformedJSON
  | notAnObject
  | missingFilterKey
  | filterNotObject
  | conditionWalk (e : CondErr)

/-- The message of each validation error (for `malformedJSON` the wrapped
decoder text is omitted). -/
def valErrMessage : ValErr → String
  | .malformedJSON => "the filter definition must be valid JSON"
  | .notAnObject => "the filter definition must be a JSON object"
  | .missingFilterKey => "the filter definition must include a top-level \"filter\" object"
  | .filterNotObject => "the \"filter\" value must be a JSON object"
  | .conditionWalk e =>
    "the filter definition must follow MySQL logical condition structure: " ++ condErrMessage e

/-- `validateAuditLogFilterDefinition`: JSON-parse the text, require a root
object with an object-valued `filter` key, then run the condition walk from
the root with path `$`. -/
def validateAuditLogFilterDefinition (definition : String) : Except ValErr Unit :=
  match parseDoc definition with
  | none => .error .malformedJSON
  | some parsed =>
    match parsed with
    | .obj rootObject =>
      match lookupField rootObject "filter" with
      | none => .error .missingFilterKey
      | some filterValue =>
        match filterValue with
        | .obj _ =>
          match validateTree parsed with
          | .error e => .error (.conditionWalk e)
          | .ok _ => .ok ()
        | _ => .error .filterNotObject
    | _ => .error .notAnObject

/-! ## Order lemmas for `strLt` -/

theorem charListLt_irrefl : ∀ l : List Char, charListLt l l = false
  | [] => rfl
  | a :: as => by
    have ih := charListLt_irrefl as
    simp [charListLt, ih]

theorem charListLt_asymm : ∀ {l m : List Char}, charListLt l m = true → charListLt m l = false
  | [], [], h => by simp [charListLt] at h
  | [], _ :: _, _ => rfl
  | _ :: _, [], h => by simp [charListLt] at h
  | a :: as, b :: bs, h => by
    simp only [charListLt] at h ⊢
    by_cases h1 : a.toNat < b.toNat
    · simp [h1, Nat.lt_asymm h1]
    · by_cases h2 : b.toNat < a.toNat
      · simp [h1, h2] at h
      · simp only [h1, h2, if_false] at h
        simp [h1, h2, charListLt_asymm h]

theorem charListLt_trans :
    ∀ {l m o : List Char}, charListLt l m = true → charListLt m o = true → charListLt l o = true
  | [], [], _, h, _ => by simp [charListLt] at h
  | [], _ :: _, [], _, h => by simp [charListLt] at h
  | [], _ :: _, _ :: _, _, _ => rfl
  | _ :: _, [], _, h, _ => by simp [charListLt] at h
  | _ :: _, _ :: _, [], _, h => by simp [charListLt] at h
  | a :: as, b :: bs, c :: cs, h1, h2 => by
    simp only [charListLt] at h1 h2 ⊢
    by_cases hab : a.toNat < b.toNat
    · by_cases hbc : b.toNat < c.toNat
      · simp [Nat.lt_trans hab hbc]
      · by_cases hcb : c.toNat < b.toNat
        · simp [hbc, hcb] at h2
        · have : b.toNat = c.toNat := Nat.le_antisymm (Nat.not_lt.mp hcb) (Nat.not_lt.mp hbc)
          simp [this ▸ hab]
    · by_cases hba : b.toNat < a.toNat
      · simp [hab, hba] at h1
      · have hev : a.toNat = b.toNat := Nat.le_antisymm (Nat.not_lt.mp hba) (Nat.not_lt.mp hab)
        simp only [hab, hba, if_false] at h1
        by_cases hbc : b.toNat < c.toNat
        · simp [hev ▸ hbc]
        · by_cases hcb : c.toNat < b.toNat
          · simp [hbc, hcb] at h2
          · simp only [hbc, hcb, if_false] at h2
            have hac : ¬ a.toNat < c.toNat := hev ▸ hbc
            have hca : ¬ c.toNat < a.toNat := hev ▸ hcb
            simp [hac, hca, charListLt_trans h1 h2]

theorem charListLt_conn :
    ∀ {l m : List Char}, charListLt l m = false → charListLt m l = false → l = m
  | [], [], _, _ => rfl
  | [], _ :: _, h, _ => by simp [charListLt] at h
  | _ :: _, [], _, h => by simp [charListLt] at h
  | a :: as, b :: bs, h1, h2 => by
    simp only [charListLt] at h1 h2
    by_cases hab : a.toNat < b.toNat
    · simp [hab] at h1
    · by_cases hba : b.toNat < a.toNat
      · simp [hab, hba] at h1
        simp [hba] at h2
      · have hev : a.toNat = b.toNat := Nat.le_antisymm (Nat.not_lt.mp hba) (Nat.not_lt.mp hab)
        simp only [hab, hba, if_false] at h1
        simp only [hba, hab, if_false] at h2
        have heq : a = b := by
          have := Char.ofNat_toNat a
          rw [show a.toNat = b.toNat from hev, Char.ofNat_toNat b] at this
          exact this.symm
        rw [heq, charListLt_conn h1 h2]

theorem strLt_asymm {a b : String} (h : strLt a b = true) : strLt b a = false :=
  charListLt_asymm h

theorem strLt_trans {a b c : String} (h1 : strLt a b = true) (h2 : strLt b c = true) :
    strLt a c = true :=
  charListLt_trans h1 h2

theorem strLt_conn {a b : String} (h1 : strLt a b = false) (h2 : strLt b a = false) : a = b := by
  cases a with
  | mk da => cases b with
    | mk db => exact congrArg String.mk (charListLt_conn h1 h2)

theorem strLt_ne {a b : String} (h : strLt a b = true) : a ≠ b := by
  intro he
  subst he
  rw [show strLt a a = charListLt a.data a.data from rfl, charListLt_irrefl] at h
  cases h

/-! ## Decimal rendering round-trip -/

/-- The digit character of `k < 10` is a digit carrying exactly `k`. -/
theorem digit_spec : ∀ k : Nat, k < 10 →
    digitVal (Char.ofNat ('0'.toNat + k)) = k ∧ isDigitCh (Char.ofNat ('0'.toNat + k)) = true := by
  decide

theorem natCharsAux_fuel : ∀ f g n acc, n < f → n < g →
    natCharsAux f n acc = natCharsAux g n acc := by
  intro f
  induction f using Nat.strong_induction_on with
  | _ f ih =>
    intro g n acc hf hg
    match f, g with
    | f + 1, g + 1 =>
      simp only [natCharsAux]
      by_cases h : n < 10
      · simp [h]
      · simp only [h, if_false]
        exact ih f (by omega) g (n / 10) _ (by omega) (by omega)

theorem natCharsAux_append : ∀ f n acc, n < f →
    natCharsAux f n acc = natCharsAux f n [] ++ acc := by
  intro f
  induction f using Nat.strong_induction_on with
  | _ f ih =>
    intro n acc hf
    match f with
    | f + 1 =>
      simp only [natCharsAux]
      by_cases h : n < 10
      · simp [h]
      · simp only [h, if_false]
        by_cases hz : n / 10 < f
        · rw [ih f (by omega) (n / 10) _ hz, ih f (by omega) (n / 10) [_] hz]
          simp
        · omega

/-- One last-digit-first unfolding of `natChars`. -/
theorem natChars_unfold (n : Nat) :
    natChars n = (if n < 10 then [] else natChars (n / 10)) ++ [Char.ofNat ('0'.toNat + n % 10)] := by
  show natCharsAux (n + 1) n [] = _
  simp only [natCharsAux]
  by_cases h : n < 10
  · simp [h, Nat.mod_eq_of_lt h]
  · simp only [h, if_false, if_neg h]
    rw [natCharsAux_fuel n (n / 10 + 1) (n / 10) _ (by omega) (by omega),
      natCharsAux_append (n / 10 + 1) (n / 10) _ (by omega)]
    rfl

theorem natChars_ne_nil (n : Nat) : natChars n ≠ [] := by
  rw [natChars_unfold]
  simp

theorem natChars_digits (n : Nat) : ∀ c ∈ natChars n, isDigitCh c = true := by
  induction n using Nat.strong_induction_on with
  | _ n ih =>
    rw [natChars_unfold]
    intro c hc
    rw [List.mem_append] at hc
    rcases hc with hc | hc
    · by_cases h : n < 10
      · simp [h] at hc
      · exact ih (n / 10) (by omega) c (by simpa [h] using hc)
    · rw [List.mem_singleton] at hc
      subst hc
      exact (digit_spec _ (Nat.mod_lt _ (by omega))).2

theorem digitsVal_natChars (n : Nat) : digitsVal (natChars n) = n := by
  induction n using Nat.strong_induction_on with
  | _ n ih =>
    rw [natChars_unfold]
    unfold digitsVal
    rw [List.foldl_append]
    by_cases hsmall : n < 10
    · simp only [List.foldl_cons, List.foldl_nil, if_pos hsmall]
      rw [(digit_spec _ (Nat.mod_lt _ (by omega))).1]
      omega
    · simp only [List.foldl_nil, List.foldl_cons, if_neg hsmall]
      have hrec := ih (n / 10) (by omega)
      unfold digitsVal at hrec
      rw [hrec, (digit_spec _ (Nat.mod_lt _ (by omega))).1]
      omega

/-- For positive `n` the leading digit character is not `'0'`. -/
theorem natChars_head_pos (n : Nat) (hn : 0 < n) :
    ∃ c t, natChars n = c :: t ∧ isDigitCh c = true ∧ c ≠ '0' := by
  induction n using Nat.strong_induction_on with
  | _ n ih =>
    rw [natChars_unfold]
    by_cases h : n < 10
    · refine ⟨Char.ofNat ('0'.toNat + n % 10), [], by simp [h], (digit_spec _ (by omega)).2, ?_⟩
      intro hc
      have : digitVal (Char.ofNat ('0'.toNat + n % 10)) = n % 10 := (digit_spec _ (by omega)).1
      rw [hc] at this
      have hz : digitVal '0' = 0 := rfl
      rw [hz] at this
      omega
    · obtain ⟨c, t, hct, hd, hz⟩ := ih (n / 10) (by omega) (by omega)
      exact ⟨c, t ++ [Char.ofNat ('0'.toNat + n % 10)], by simp [h, hct], hd, hz⟩

/-- A remainder that cannot extend a digit run: empty or headed by a
non-digit.  Every continuation a rendered document produces (`,`, `]`,
`}`, end of input) qualifies. -/
def numDelim : List Char → Bool
  | [] => true
  | c :: _ => !(isDigitCh c)

theorem takeDigits_stop {cs : List Char} (h : numDelim cs = true) :
    takeDigits cs = ([], cs) := by
  cases cs with
  | nil => rfl
  | cons c t =>
    simp only [numDelim, Bool.not_eq_true'] at h
    simp [takeDigits, h]

theorem takeDigits_run (ds : List Char) (hds : ∀ c ∈ ds, isDigitCh c = true)
    (rest : List Char) (hrest : numDelim rest = true) :
    takeDigits (ds ++ rest) = (ds, rest) := by
  induction ds with
  | nil => simpa using takeDigits_stop hrest
  | cons c t ih =>
    have hcd : isDigitCh c = true := hds c (by simp)
    have htail := ih (fun x hx => hds x (by simp [hx]))
    simp [takeDigits, hcd, htail]

theorem digitsOk_of_head {c : Char} (t : List Char) (h : c ≠ '0') : digitsOk (c :: t) = true := by
  simp [digitsOk, h]

/-- Round-trip for integer literals: parsing a rendered integer recovers it,
provided the remainder cannot extend the digit run. -/
theorem parseNum_intChars (n : Int) (rest : List Char) (hr : numDelim rest = true) :
    parseNum (intChars n ++ rest) = some (n, rest) := by
  by_cases hn : n < 0
  · have hpos : 0 < n.natAbs := by omega
    obtain ⟨c, t, hct, hd, hz⟩ := natChars_head_pos n.natAbs hpos
    have harg : intChars n ++ rest = '-' :: (natChars n.natAbs ++ rest) := by
      simp [intChars, hn]
    rw [harg]
    simp only [parseNum]
    rw [takeDigits_run _ (natChars_digits _) _ hr, hct]
    rw [digitsOk_of_head _ hz, if_pos rfl, ← hct, digitsVal_natChars]
    exact congrArg some (Prod.ext (by omega) rfl)
  · have harg : intChars n ++ rest = natChars n.natAbs ++ rest := by
      simp [intChars, hn]
    by_cases hz : n = 0
    · subst hz
      rw [harg]
      have h0 : natChars (Int.natAbs 0) = ['0'] := rfl
      rw [h0]
      match rest with
      | [] => rfl
      | c :: t =>
        simp only [numDelim, Bool.not_eq_true'] at hr
        simp only [List.cons_append, List.nil_append, parseNum]
        split
        · rename_i heq
          injection heq with h1 h2
          exact absurd h1.symm (by decide)
        · have d0 : isDigitCh '0' = true := by decide
          have htd : takeDigits ('0' :: c :: t) = (['0'], c :: t) := by
            simp [takeDigits, d0, hr]
          simp [htd, digitsOk, digitsVal, digitVal]
    · have hpos : 0 < n.natAbs := by omega
      obtain ⟨c, t, hct, hd, hz2⟩ := natChars_head_pos n.natAbs hpos
      rw [harg, hct]
      simp only [List.cons_append, parseNum]
      have hnm : c ≠ '-' := by
        intro hx
        subst hx
        exact absurd hd (by decide)
      split
      · rename_i heq
        injection heq with h1 h2
        exact absurd h1 hnm
      · have hrun : takeDigits ((c :: t) ++ rest) = (c :: t, rest) := by
          rw [← hct]
          exact takeDigits_run _ (natChars_digits _) _ hr
        simp only [List.cons_append] at hrun
        simp only [hrun, digitsOk_of_head _ hz2, if_pos rfl]
        rw [show (c :: t) = natChars n.natAbs from hct.symm, digitsVal_natChars]
        exact congrArg some (Prod.ext (by omega) rfl)

/-! ## String escaping round-trip -/

theorem hexVal_hexCh : ∀ d : Nat, d < 16 → hexDigitVal (hexDigitCh d) = some d := by
  decide

/-- Parsing one escaped character undoes the escaping, consuming one unit
of fuel. -/
theorem parseStringBody_escape (c : Char) (f : Nat) (rest : List Char) :
    parseStringBody (f + 1) (escapeChar c ++ rest)
      = match parseStringBody f rest with
        | some (s, r) => some (c :: s, r)
        | none => none := by
  by_cases h1 : c = '"'
  · subst h1; rfl
  by_cases h2 : c = '\\'
  · subst h2; rfl
  by_cases h3 : c = '\n'
  · subst h3; rfl
  by_cases h4 : c = '\r'
  · subst h4; rfl
  by_cases h5 : c = '\t'
  · subst h5; rfl
  by_cases h6 : c.toNat < 0x20
  · have harg : escapeChar c
        = ['\\', 'u', '0', '0', hexDigitCh (c.toNat / 16), hexDigitCh (c.toNat % 16)] := by
      simp [escapeChar, h1, h2, h3, h4, h5, h6]
    have hq : hexQuad '0' '0' (hexDigitCh (c.toNat / 16)) (hexDigitCh (c.toNat % 16))
        = some c.toNat := by
      have hv0 : hexDigitVal '0' = some 0 := by decide
      rw [hexQuad, hv0, hexVal_hexCh _ (by omega), hexVal_hexCh _ (by omega)]
      simp only [Option.some.injEq]
      omega
    rw [harg]
    simp only [List.cons_append, List.nil_append, parseStringBody, hq]
    have hlt : c.toNat < 55296 := by omega
    simp [hlt, Char.ofNat_toNat]
  by_cases h7 : c = '<'
  · subst h7; rfl
  by_cases h8 : c = '>'
  · subst h8; rfl
  by_cases h9 : c = '&'
  · subst h9; rfl
  by_cases h10 : c.toNat = 0x2028
  · have hc : c = Char.ofNat 0x2028 := by rw [← h10, Char.ofNat_toNat]
    subst hc; rfl
  by_cases h11 : c.toNat = 0x2029
  · have hc : c = Char.ofNat 0x2029 := by rw [← h11, Char.ofNat_toNat]
    subst hc; rfl
  · have harg : escapeChar c = [c] := by
      simp [escapeChar, h1, h2, h3, h4, h5, h6, h7, h8, h9, h10, h11]
    rw [harg]
    show parseStringBody (f + 1) (c :: rest) = _
    simp only [parseStringBody]
    simp [h1, h2, h6]

/-- A whole escaped run parses back to the original characters, stopping at
the closing quote. -/
theorem parseStringBody_escapeList : ∀ (l : List Char) (f : Nat) (rest : List Char),
    l.length < f → parseStringBody f (escapeList l ++ '"' :: rest) = some (l, rest)
  | [], f, rest, hf => by
    match f, hf with
    | f + 1, _ => rfl
  | c :: t, f, hf, hlen => by
    match f, hlen with
    | f + 1, hlen =>
      show parseStringBody (f + 1) ((escapeChar c ++ escapeList t) ++ '"' :: _) = _
      rw [List.append_assoc, parseStringBody_escape,
        parseStringBody_escapeList t f _ (by simpa using Nat.lt_of_succ_lt_succ hlen)]

/-! ## Canonical values and `insertKey` -/

/-- Keys of an association list are in strictly ascending `strLt` order. -/
def keysSorted : List (String × Json) → Bool
  | [] => true
  | [_] => true
  | (k1, v1) :: (k2, v2) :: tl => strLt k1 k2 && keysSorted ((k2, v2) :: tl)

mutual

/-- A value is canonical when every object in it has strictly sorted keys;
this is exactly the form `parseDoc` produces and the form that survives a
render-and-reparse round trip. -/
def canonical : Json → Bool
  | .arr es => canonicalItems es
  | .obj ms => keysSorted ms && canonicalMembers ms
  | _ => true

/-- All array elements canonical. -/
def canonicalItems : List Json → Bool
  | [] => true
  | v :: vs => canonical v && canonicalItems vs

/-- All object member values canonical. -/
def canonicalMembers : List (String × Json) → Bool
  | [] => true
  | (_, v) :: ms => canonical v && canonicalMembers ms

end

theorem keysSorted_cons {k : String} {v : Json} {tl : List (String × Json)}
    (h : keysSorted ((k, v) :: tl) = true) : keysSorted tl = true := by
  match tl with
  | [] => rfl
  | (k2, v2) :: tl2 =>
    simp only [keysSorted, Bool.and_eq_true] at h
    exact h.2

/-- In a sorted list headed by `k`, every later key is above `k`. -/
theorem keysSorted_head_lt {k : String} {v : Json} {tl : List (String × Json)}
    (h : keysSorted ((k, v) :: tl) = true) : ∀ p ∈ tl, strLt k p.1 = true := by
  induction tl generalizing k v with
  | nil => intro p hp; cases hp
  | cons hd tl2 ih =>
    intro p hp
    match hd with
    | (k2, v2) =>
      simp only [keysSorted, Bool.and_eq_true] at h
      rcases List.mem_cons.mp hp with hp | hp
      · subst hp; exact h.1
      · exact strLt_trans h.1 (ih h.2 p hp)

/-- Inserting a key above everything in a sorted list appends it. -/
theorem insertKey_append {k : String} {v : Json} : ∀ {acc : List (String × Json)},
    (∀ p ∈ acc, strLt p.1 k = true) → insertKey k v acc = acc ++ [(k, v)]
  | [], _ => rfl
  | (k2, v2) :: tl, h => by
    have hk2 : strLt k2 k = true := h (k2, v2) (by simp)
    have h1 : strLt k k2 = false := strLt_asymm hk2
    have h2 : k ≠ k2 := fun he => strLt_ne hk2 he.symm
    simp only [insertKey, h1, if_false, h2, Bool.false_eq_true]
    rw [insertKey_append (fun p hp => h p (by simp [hp]))]
    simp

/-- `keysSorted` across an append splits into both parts plus the cross
inequality on adjacent keys. -/
theorem keysSorted_append_mid {acc : List (String × Json)} {k : String} {v : Json}
    {tl : List (String × Json)}
    (h : keysSorted (acc ++ (k, v) :: tl) = true) : ∀ p ∈ acc, strLt p.1 k = true := by
  induction acc with
  | nil => intro p hp; cases hp
  | cons hd acc2 ih =>
    intro p hp
    match hd with
    | (k1, v1) =>
      rcases List.mem_cons.mp hp with hp | hp
      · subst hp
        exact keysSorted_head_lt h (k, v) (by simp)
      · exact ih (keysSorted_cons h) p hp

theorem keysSorted_append_right {acc tl : List (String × Json)}
    (h : keysSorted (acc ++ tl) = true) : keysSorted tl = true := by
  induction acc with
  | nil => exact h
  | cons hd acc2 ih =>
    match hd with
    | (k1, v1) => exact ih (keysSorted_cons h)

/-! ## Heads of rendered output -/

theorem digit_toNat {c : Char} (h : isDigitCh c = true) : 48 ≤ c.toNat ∧ c.toNat ≤ 57 := by
  simp only [isDigitCh, Bool.and_eq_true, decide_eq_true_eq] at h
  obtain ⟨hl, hr⟩ := h
  rw [Char.le_def, UInt32.le_def] at hl hr
  exact ⟨hl, hr⟩

theorem digit_facts {c : Char} (h : isDigitCh c = true) :
    isWs c = false ∧ c ≠ ']' ∧ c ≠ '}' ∧ c ≠ ',' ∧ c ≠ 'n' ∧ c ≠ 't' ∧ c ≠ 'f' ∧
      c ≠ '"' ∧ c ≠ '[' ∧ c ≠ '{' ∧ c ≠ '-' := by
  obtain ⟨hl, hr⟩ := digit_toNat h
  refine ⟨?_, ?_, ?_, ?_, ?_, ?_, ?_, ?_, ?_, ?_, ?_⟩
  · simp only [isWs, Bool.or_eq_false_iff, beq_eq_false_iff_ne]
    refine ⟨⟨⟨?_, ?_⟩, ?_⟩, ?_⟩ <;> (rintro rfl; revert hl hr; decide)
  all_goals (rintro rfl; revert hl hr; decide)

/-- Every rendered value starts with a character that is not whitespace and
closes no bracket. -/
theorem render_head (v : Json) :
    ∃ c t, render v = c :: t ∧ isWs c = false ∧ c ≠ ']' ∧ c ≠ '}' := by
  have mk : ∀ (c : Char) (t : List Char), render v = c :: t →
      (isWs c = false ∧ c ≠ ']' ∧ c ≠ '}') →
      ∃ c2 t2, render v = c2 :: t2 ∧ isWs c2 = false ∧ c2 ≠ ']' ∧ c2 ≠ '}' :=
    fun c t h hp => ⟨c, t, h, hp.1, hp.2.1, hp.2.2⟩
  cases v with
  | null => exact mk 'n' _ rfl (by decide)
  | bool b =>
    cases b with
    | true => exact mk 't' _ rfl (by decide)
    | false => exact mk 'f' _ rfl (by decide)
  | str s => exact mk '"' _ rfl (by decide)
  | arr es => exact mk '[' _ rfl (by decide)
  | obj ms => exact mk '{' _ rfl (by decide)
  | num n =>
    by_cases hn : n < 0
    · exact mk '-' (natChars n.natAbs) (by simp [render, intChars, hn]) (by decide)
    · have hpos : (0 : Nat) ≤ n.natAbs := Nat.zero_le _
      obtain ⟨c, t, hct, hd⟩ :
          ∃ c t, natChars n.natAbs = c :: t ∧ isDigitCh c = true := by
        rcases hx : natChars n.natAbs with hnil | ⟨c, t⟩
        · exact absurd hx (natChars_ne_nil _)
        · exact ⟨c, t, rfl, natChars_digits _ c (hx ▸ List.mem_cons_self ..)⟩
      obtain ⟨hws, hbr, hbc, _⟩ := digit_facts hd
      refine ⟨c, t, ?_, hws, hbr, hbc⟩
      simp [render, intChars, hn, hct]

/-- `skipWs` is the identity on rendered output. -/
theorem skipWs_render (v : Json) (x : List Char) :
    skipWs (render v ++ x) = render v ++ x := by
  obtain ⟨c, t, hren, hws, _, _⟩ := render_head v
  rw [hren, List.cons_append]
  simp [skipWs, hws]

/-! ## Fuel bounds: the size of a value is at most its rendered length -/

set_option maxHeartbeats 1000000 in
theorem escapeChar_length (c : Char) : 1 ≤ (escapeChar c).length := by
  unfold escapeChar
  repeat' split
  all_goals simp

theorem escapeList_length (l : List Char) : l.length ≤ (escapeList l).length := by
  induction l with
  | nil => simp [escapeList]
  | cons c t ih =>
    have hc := escapeChar_length c
    simp only [escapeList, List.length_append, List.length_cons]
    omega

mutual

theorem jsonSize_le_render : ∀ v : Json, jsonSize v ≤ (render v).length
  | .null => by simp [jsonSize, render]
  | .bool b => by cases b <;> simp [jsonSize, render]
  | .num n => by
    have h := natChars_ne_nil n.natAbs
    have hl : 1 ≤ (natChars n.natAbs).length := by
      cases hx : natChars n.natAbs with
      | nil => exact absurd hx h
      | cons c t => simp
    unfold jsonSize render intChars
    split <;> simp <;> omega
  | .str s => by simp [jsonSize, render, renderString]
  | .arr es => by
    have h := itemsSize_le_render es
    simp only [jsonSize, render, List.length_cons, List.length_append]
    omega
  | .obj ms => by
    have h := membersSize_le_render ms
    simp only [jsonSize, render, List.length_cons, List.length_append]
    omega

theorem itemsSize_le_render : ∀ es : List Json, itemsSize es ≤ (renderItems es).length + 1
  | [] => by simp [itemsSize, renderItems]
  | [e] => by
    have h := jsonSize_le_render e
    simp only [itemsSize, itemsSize.eq_1, renderItems]
    omega
  | e :: e2 :: es => by
    have h1 := jsonSize_le_render e
    have h2 := itemsSize_le_render (e2 :: es)
    simp only [itemsSize] at h2 ⊢
    simp only [renderItems, List.length_append, List.length_cons] at h2 ⊢
    omega

theorem membersSize_le_render : ∀ ms : List (String × Json),
    membersSize ms ≤ (renderMembers ms).length
  | [] => by simp [membersSize, renderMembers]
  | [(k, v)] => by
    have h := jsonSize_le_render v
    simp only [membersSize, membersSize.eq_1, renderMembers, renderString,
      List.length_append, List.length_cons]
    omega
  | (k, v) :: m2 :: ms => by
    have h1 := jsonSize_le_render v
    have h2 := membersSize_le_render (m2 :: ms)
    simp only [membersSize] at h2 ⊢
    simp only [renderMembers, renderString, List.length_append, List.length_cons] at h2 ⊢
    omega

end

/-! ## The parser inverts the renderer on canonical values -/

/-- A value whose input starts like a number dispatches to `parseNum`. -/
theorem parseValue_to_num (f : Nat) (c0 : Char) (t : List Char)
    (hxq : c0 ≠ '"') (hxn : c0 ≠ 'n')
    (hxt : c0 ≠ 't') (hxf : c0 ≠ 'f')
    (hxk : c0 ≠ '[') (hxb : c0 ≠ '{') :
    parseValue (f + 1) (c0 :: t)
      = match parseNum (c0 :: t) with
        | some (n, r) => some (.num n, r)
        | none => none := by
  simp only [parseValue]
  simp [hxn, hxt, hxf, hxq, hxk, hxb]

/-- Round trip for rendered numbers at the `parseValue` level. -/
theorem parseValue_num (n : Int) (f : Nat) (rest : List Char) (hr : numDelim rest = true) :
    parseValue (f + 1) (intChars n ++ rest) = some (.num n, rest) := by
  by_cases hn : n < 0
  · have harg : intChars n ++ rest = '-' :: (natChars n.natAbs ++ rest) := by
      simp [intChars, hn]
    rw [harg, parseValue_to_num f '-' _ (by decide) (by decide) (by decide) (by decide)
      (by decide) (by decide), ← harg, parseNum_intChars n rest hr]
  · have harg : intChars n ++ rest = natChars n.natAbs ++ rest := by
      simp [intChars, hn]
    obtain ⟨c, t, hct, hd⟩ :
        ∃ c t, natChars n.natAbs = c :: t ∧ isDigitCh c = true := by
      rcases hx : natChars n.natAbs with hnil | ⟨c, t⟩
      · exact absurd hx (natChars_ne_nil _)
      · exact ⟨c, t, rfl, natChars_digits _ c (hx ▸ List.mem_cons_self ..)⟩
    obtain ⟨_, _, _, _, hcn, hctt, hcf, hcq, hck, hcb, _⟩ := digit_facts hd
    have harg2 : intChars n ++ rest = c :: (t ++ rest) := by
      rw [harg, hct, List.cons_append]
    rw [harg2, parseValue_to_num f c _ hcq hcn hctt hcf hck hcb, ← harg2,
      parseNum_intChars n rest hr]

/-- Round trip for rendered strings at the `parseValue` level. -/
theorem parseValue_str (s : String) (f : Nat) (rest : List Char) :
    parseValue (f + 1) (renderString s ++ rest) = some (.str s, rest) := by
  have harg : renderString s ++ rest = '"' :: (escapeList s.data ++ ('"' :: rest)) := by
    simp [renderString]
  rw [harg]
  show (match parseStringBody ((escapeList s.data ++ ('"' :: rest)).length + 1)
      (escapeList s.data ++ ('"' :: rest)) with
    | some (s2, r2) => some (Json.str (String.mk s2), r2)
    | none => none) = some (Json.str s, rest)
  rw [parseStringBody_escapeList s.data _ rest (by
    have h1 := escapeList_length s.data
    simp only [List.length_append, List.length_cons]
    omega)]

/-- The array branch of the parser dispatches a nonempty rendered element
list to `parseItems` (its head closes no bracket). -/
theorem parseValue_arr (e : Json) (es : List Json) (f : Nat) (rest : List Char) :
    parseValue (f + 1) ('[' :: (renderItems (e :: es) ++ ']' :: rest))
      = match parseItems f (renderItems (e :: es) ++ ']' :: rest) with
        | some (vs, r) => some (Json.arr vs, r)
        | none => none := by
  obtain ⟨c, t, hren, hws, hbr, _⟩ := render_head e
  obtain ⟨t2, ht2⟩ : ∃ t2, renderItems (e :: es) ++ ']' :: rest = c :: t2 := by
    cases es with
    | nil => exact ⟨t ++ ']' :: rest, by simp [renderItems, hren]⟩
    | cons e2 es2 =>
      exact ⟨(t ++ ',' :: renderItems (e2 :: es2)) ++ ']' :: rest,
        by simp [renderItems, hren]⟩
  show (match skipWs (renderItems (e :: es) ++ ']' :: rest) with
        | [] => none
        | c2 :: r2 =>
          if c2 = ']' then some (Json.arr [], r2)
          else
            match parseItems f (c2 :: r2) with
            | some (vs, r3) => some (Json.arr vs, r3)
            | none => none) = _
  rw [ht2, show skipWs (c :: t2) = c :: t2 from by simp [skipWs, hws]]
  show (if c = ']' then some (Json.arr [], t2)
        else match parseItems f (c :: t2) with
             | some (vs, r3) => some (Json.arr vs, r3)
             | none => none) = _
  rw [if_neg hbr, ← ht2]

/-- The object branch of the parser dispatches a nonempty rendered member
list to `parseMembers` (its head is the key's opening quote). -/
theorem parseValue_obj (m : String × Json) (ms : List (String × Json)) (f : Nat)
    (rest : List Char) :
    parseValue (f + 1) ('{' :: (renderMembers (m :: ms) ++ '}' :: rest))
      = match parseMembers f (renderMembers (m :: ms) ++ '}' :: rest) [] with
        | some (ms2, r) => some (Json.obj ms2, r)
        | none => none := by
  obtain ⟨t2, ht2⟩ : ∃ t2, renderMembers (m :: ms) ++ '}' :: rest = '"' :: t2 := by
    match m with
    | (k, v) =>
      cases ms with
      | nil => exact ⟨(escapeList k.data ++ ['"']) ++ ':' :: render v ++ '}' :: rest,
          by simp [renderMembers, renderString]⟩
      | cons m2 ms2 =>
        exact ⟨(escapeList k.data ++ ['"']) ++
            (':' :: render v ++ ',' :: renderMembers (m2 :: ms2)) ++ '}' :: rest,
          by simp [renderMembers, renderString]⟩
  show (match skipWs (renderMembers (m :: ms) ++ '}' :: rest) with
        | [] => none
        | c2 :: r2 =>
          if c2 = '}' then some (Json.obj [], r2)
          else
            match parseMembers f (c2 :: r2) [] with
            | some (ms2, r3) => some (Json.obj ms2, r3)
            | none => none) = _
  rw [ht2, show skipWs ('"' :: t2) = '"' :: t2 from rfl]
  show (match parseMembers f ('"' :: t2) [] with
        | some (ms2, r3) => some (Json.obj ms2, r3)
        | none => none) = _
  rw [← ht2]

mutual

/-- Parsing a rendered canonical value recovers it exactly, for any
remainder that cannot extend a number literal. -/
theorem rt_val : ∀ (v : Json) (f : Nat) (rest : List Char),
    canonical v = true → jsonSize v < f → numDelim rest = true →
    parseValue f (render v ++ rest) = some (v, rest)
  | .null, f, rest, _, hf, _ => by
    match f, hf with
    | f + 1, _ => rfl
  | .bool true, f, rest, _, hf, _ => by
    match f, hf with
    | f + 1, _ => rfl
  | .bool false, f, rest, _, hf, _ => by
    match f, hf with
    | f + 1, _ => rfl
  | .num n, f, rest, _, hf, hr => by
    match f, hf with
    | f + 1, _ => exact parseValue_num n f rest hr
  | .str s, f, rest, _, hf, _ => by
    match f, hf with
    | f + 1, _ => exact parseValue_str s f rest
  | .arr [], f, rest, _, hf, _ => by
    match f, hf with
    | f + 1, _ => rfl
  | .arr (e :: es), f, rest, hc, hf, _ => by
    match f, hf with
    | f + 1, hf =>
      have hfi : itemsSize (e :: es) < f := by
        simp only [jsonSize] at hf
        omega
      have harg : render (Json.arr (e :: es)) ++ rest
          = '[' :: (renderItems (e :: es) ++ ']' :: rest) := by
        simp [render]
      rw [harg, parseValue_arr e es f rest,
        rt_items e es f rest (by simpa [canonical] using hc) hfi]
  | .obj [], f, rest, _, hf, _ => by
    match f, hf with
    | f + 1, _ => rfl
  | .obj (m :: ms), f, rest, hc, hf, _ => by
    match f, hf with
    | f + 1, hf =>
      have hfm : membersSize (m :: ms) < f := by
        simp only [jsonSize] at hf
        omega
      simp only [canonical, Bool.and_eq_true] at hc
      have harg : render (Json.obj (m :: ms)) ++ rest
          = '{' :: (renderMembers (m :: ms) ++ '}' :: rest) := by
        simp [render]
      rw [harg, parseValue_obj m ms f rest,
        rt_members m ms [] f rest hc.2 hfm (by simpa using hc.1)]
      simp
termination_by v _ _ _ _ _ => sizeOf v

/-- Parsing a rendered nonempty element list recovers it. -/
theorem rt_items : ∀ (e : Json) (es : List Json) (f : Nat) (rest : List Char),
    canonicalItems (e :: es) = true → itemsSize (e :: es) < f →
    parseItems f (renderItems (e :: es) ++ ']' :: rest) = some (e :: es, rest)
  | e, [], f, rest, hc, hf => by
    match f, hf with
    | f + 1, hf =>
      simp only [canonicalItems, Bool.and_eq_true] at hc
      have hfe : jsonSize e < f := by
        simp only [itemsSize] at hf
        omega
      have hv := rt_val e f (']' :: rest) hc.1 hfe rfl
      show (match parseValue f (skipWs (renderItems [e] ++ ']' :: rest)) with
            | none => none
            | some (v, r) =>
              match skipWs r with
              | ',' :: r2 =>
                match parseItems f r2 with
                | some (es2, r3) => some (v :: es2, r3)
                | none => none
              | ']' :: r2 => some ([v], r2)
              | _ => none) = _
      rw [show renderItems [e] = render e from rfl, skipWs_render e (']' :: rest), hv]
      rfl
  | e, e2 :: es2, f, rest, hc, hf => by
    match f, hf with
    | f + 1, hf =>
      simp only [canonicalItems, Bool.and_eq_true] at hc
      have hfe : jsonSize e < f := by
        simp only [itemsSize] at hf
        omega
      have hfr : itemsSize (e2 :: es2) < f := by
        simp only [itemsSize] at hf ⊢
        omega
      have hv := rt_val e f (',' :: (renderItems (e2 :: es2) ++ ']' :: rest)) hc.1 hfe rfl
      have key := rt_items e2 es2 f rest (by
        simp only [canonicalItems, Bool.and_eq_true] at hc ⊢
        exact hc.2) hfr
      have harg : renderItems (e :: e2 :: es2) ++ ']' :: rest
          = render e ++ (',' :: (renderItems (e2 :: es2) ++ ']' :: rest)) := by
        simp [renderItems]
      show (match parseValue f (skipWs (renderItems (e :: e2 :: es2) ++ ']' :: rest)) with
            | none => none
            | some (v, r) =>
              match skipWs r with
              | ',' :: r2 =>
                match parseItems f r2 with
                | some (es3, r3) => some (v :: es3, r3)
                | none => none
              | ']' :: r2 => some ([v], r2)
              | _ => none) = _
      rw [harg, skipWs_render e _, hv]
      show (match parseItems f (renderItems (e2 :: es2) ++ ']' :: rest) with
            | some (es3, r3) => some (e :: es3, r3)
            | none => none) = _
      rw [key]
termination_by e es _ _ _ _ => sizeOf e + sizeOf es

/-- Parsing a rendered nonempty member list, into a sorted accumulator lying
entirely below it, appends exactly those members. -/
theorem rt_members : ∀ (m : String × Json) (ms : List (String × Json))
    (acc : List (String × Json)) (f : Nat) (rest : List Char),
    canonicalMembers (m :: ms) = true → membersSize (m :: ms) < f →
    keysSorted (acc ++ m :: ms) = true →
    parseMembers f (renderMembers (m :: ms) ++ '}' :: rest) acc = some (acc ++ m :: ms, rest)
  | (k, v), [], acc, f, rest, hc, hf, hs => by
    match f, hf with
    | f + 1, hf =>
      simp only [canonicalMembers, Bool.and_eq_true] at hc
      have hfe : jsonSize v < f := by
        simp only [membersSize] at hf
        omega
      have hv := rt_val v f ('}' :: rest) hc.1 hfe rfl
      have harg : renderMembers [(k, v)] ++ '}' :: rest
          = '"' :: (escapeList k.data ++ ('"' :: (':' :: (render v ++ '}' :: rest)))) := by
        simp [renderMembers, renderString]
      rw [harg]
      show (match parseStringBody
            ((escapeList k.data ++ '"' :: ':' :: (render v ++ '}' :: rest)).length + 1)
            (escapeList k.data ++ '"' :: ':' :: (render v ++ '}' :: rest)) with
            | none => none
            | some (k2, r1) =>
              match skipWs r1 with
              | ':' :: r2 =>
                match parseValue f (skipWs r2) with
                | none => none
                | some (v2, r3) =>
                  match skipWs r3 with
                  | ',' :: r4 => parseMembers f r4 (insertKey (String.mk k2) v2 acc)
                  | '}' :: r4 => some (insertKey (String.mk k2) v2 acc, r4)
                  | _ => none
              | _ => none) = _
      rw [parseStringBody_escapeList k.data _ (':' :: (render v ++ '}' :: rest)) (by
        have h1 := escapeList_length k.data
        simp only [List.length_append, List.length_cons]
        omega)]
      show (match parseValue f (skipWs (render v ++ '}' :: rest)) with
            | none => none
            | some (v2, r3) =>
              match skipWs r3 with
              | ',' :: r4 => parseMembers f r4 (insertKey (String.mk k.data) v2 acc)
              | '}' :: r4 => some (insertKey (String.mk k.data) v2 acc, r4)
              | _ => none) = _
      rw [skipWs_render v _, hv]
      show some (insertKey k v acc, rest) = _
      rw [insertKey_append (keysSorted_append_mid hs)]
  | (k, v), m2 :: ms2, acc, f, rest, hc, hf, hs => by
    match f, hf with
    | f + 1, hf =>
      simp only [canonicalMembers, Bool.and_eq_true] at hc
      have hfe : jsonSize v < f := by
        simp only [membersSize] at hf
        omega
      have hfr : membersSize (m2 :: ms2) < f := by
        simp only [membersSize] at hf ⊢
        omega
      have hs2 : keysSorted ((acc ++ [(k, v)]) ++ m2 :: ms2) = true := by
        rw [List.append_assoc]
        exact hs
      have hv := rt_val v f (',' :: (renderMembers (m2 :: ms2) ++ '}' :: rest)) hc.1 hfe rfl
      have key := rt_members m2 ms2 (acc ++ [(k, v)]) f rest (by
        simp only [canonicalMembers, Bool.and_eq_true] at hc ⊢
        exact hc.2) hfr hs2
      have harg : renderMembers ((k, v) :: m2 :: ms2) ++ '}' :: rest
          = '"' :: (escapeList k.data ++ ('"' :: (':' ::
              (render v ++ (',' :: (renderMembers (m2 :: ms2) ++ '}' :: rest)))))) := by
        simp [renderMembers, renderString]
      rw [harg]
      show (match parseStringBody
            ((escapeList k.data ++ '"' :: ':' ::
              (render v ++ ',' :: (renderMembers (m2 :: ms2) ++ '}' :: rest))).length + 1)
            (escapeList k.data ++ '"' :: ':' ::
              (render v ++ ',' :: (renderMembers (m2 :: ms2) ++ '}' :: rest))) with
            | none => none
            | some (k2, r1) =>
              match skipWs r1 with
              | ':' :: r2 =>
                match parseValue f (skipWs r2) with
                | none => none
                | some (v2, r3) =>
                  match skipWs r3 with
                  | ',' :: r4 => parseMembers f r4 (insertKey (String.mk k2) v2 acc)
                  | '}' :: r4 => some (insertKey (String.mk k2) v2 acc, r4)
                  | _ => none
              | _ => none) = _
      rw [parseStringBody_escapeList k.data _
        (':' :: (render v ++ ',' :: (renderMembers (m2 :: ms2) ++ '}' :: rest))) (by
          have h1 := escapeList_length k.data
          simp only [List.length_append, List.length_cons]
          omega)]
      show (match parseValue f (skipWs (render v ++ ',' ::
              (renderMembers (m2 :: ms2) ++ '}' :: rest))) with
            | none => none
            | some (v2, r3) =>
              match skipWs r3 with
              | ',' :: r4 => parseMembers f r4 (insertKey (String.mk k.data) v2 acc)
              | '}' :: r4 => some (insertKey (String.mk k.data) v2 acc, r4)
              | _ => none) = _
      rw [skipWs_render v _, hv]
      show parseMembers f (renderMembers (m2 :: ms2) ++ '}' :: rest) (insertKey k v acc) = _
      rw [insertKey_append (keysSorted_append_mid hs), key]
      simp
termination_by m ms _ _ _ _ _ _ => sizeOf m + sizeOf ms

end

/-! ## Parser output is canonical -/

theorem keysSorted_cons_of (a : String × Json) (l : List (String × Json))
    (hl : keysSorted l = true) (hb : ∀ p ∈ l, strLt a.1 p.1 = true) :
    keysSorted (a :: l) = true := by
  match a, l with
  | (k, v), [] => rfl
  | (k, v), (k2, v2) :: tl =>
    simp only [keysSorted, Bool.and_eq_true]
    exact ⟨hb (k2, v2) (by simp), hl⟩

theorem insertKey_mem {k : String} {v : Json} :
    ∀ {l : List (String × Json)} {p}, p ∈ insertKey k v l → p = (k, v) ∨ p ∈ l := by
  intro l
  induction l with
  | nil => intro p hp; simp [insertKey] at hp; exact Or.inl hp
  | cons hd tl ih =>
    intro p hp
    match hd with
    | (k2, v2) =>
      simp only [insertKey] at hp
      by_cases h1 : strLt k k2
      · simp only [h1, if_true] at hp
        rcases List.mem_cons.mp hp with hp | hp
        · exact Or.inl hp
        · exact Or.inr hp
      · simp only [h1, Bool.false_eq_true, if_false] at hp
        by_cases h2 : k = k2
        · simp only [h2, if_pos rfl] at hp
          rcases List.mem_cons.mp hp with hp | hp
          · exact Or.inl (by rw [hp, h2])
          · exact Or.inr (by simp [hp])
        · simp only [h2, if_false] at hp
          rcases List.mem_cons.mp hp with hp | hp
          · exact Or.inr (by simp [hp])
          · rcases ih hp with hp | hp
            · exact Or.inl hp
            · exact Or.inr (by simp [hp])

theorem insertKey_sorted {k : String} {v : Json} :
    ∀ {l : List (String × Json)}, keysSorted l = true → keysSorted (insertKey k v l) = true := by
  intro l
  induction l with
  | nil => intro _; rfl
  | cons hd tl ih =>
    intro h
    match hd with
    | (k2, v2) =>
      simp only [insertKey]
      by_cases h1 : strLt k k2
      · simp only [h1, if_true]
        exact keysSorted_cons_of (k, v) ((k2, v2) :: tl) h
          (fun p hp => by
            rcases List.mem_cons.mp hp with hp | hp
            · rw [hp]; exact h1
            · exact strLt_trans h1 (keysSorted_head_lt h p hp))
      · simp only [h1, Bool.false_eq_true, if_false]
        by_cases h2 : k = k2
        · simp only [h2, if_pos rfl]
          subst h2
          exact keysSorted_cons_of (k, v) tl (keysSorted_cons h) (keysSorted_head_lt h)
        · simp only [h2, if_false]
          have hgt : strLt k2 k = true := by
            by_cases h3 : strLt k2 k
            · exact h3
            · exact absurd (strLt_conn (by simpa using h1) (by simpa using h3)) h2
          refine keysSorted_cons_of (k2, v2) _ (ih (keysSorted_cons h)) (fun p hp => ?_)
          rcases insertKey_mem hp with hp | hp
          · rw [hp]; exact hgt
          · exact keysSorted_head_lt h p hp

theorem insertKey_canonMembers {k : String} {v : Json} (hv : canonical v = true) :
    ∀ {l : List (String × Json)}, canonicalMembers l = true →
      canonicalMembers (insertKey k v l) = true := by
  intro l
  induction l with
  | nil => intro _; simp [insertKey, canonicalMembers, hv]
  | cons hd tl ih =>
    intro h
    match hd with
    | (k2, v2) =>
      simp only [canonicalMembers, Bool.and_eq_true] at h
      simp only [insertKey]
      by_cases h1 : strLt k k2
      · simp only [h1, if_true]
        simp only [canonicalMembers, Bool.and_eq_true]
        exact ⟨hv, h.1, h.2⟩
      · simp only [h1, Bool.false_eq_true, if_false]
        by_cases h2 : k = k2
        · simp only [h2, if_pos rfl]
          simp only [canonicalMembers, Bool.and_eq_true]
          exact ⟨hv, h.2⟩
        · simp only [h2, if_false]
          simp only [canonicalMembers, Bool.and_eq_true]
          exact ⟨h.1, ih h.2⟩

mutual

/-- Everything `parseValue` accepts is canonical. -/
theorem parseValue_canonical : ∀ (f : Nat) (cs r : List Char) (v : Json),
    parseValue f cs = some (v, r) → canonical v = true
  | 0, cs, r, v, h => by simp [parseValue] at h
  | f + 1, cs, r, v, h => by
    simp only [parseValue] at h
    repeat' split at h
    all_goals
      first
      | contradiction
      | (injection h with h1
         injection h1 with h2 h3
         subst h2
         rfl)
      | (rename_i hx
         injection h with h1
         injection h1 with h2 h3
         subst h2
         exact parseItems_canonical f _ _ _ hx)
      | (rename_i hx
         injection h with h1
         injection h1 with h2 h3
         subst h2
         show (keysSorted _ && canonicalMembers _) = true
         have := parseMembers_canonical f _ [] _ _ hx rfl rfl
         simp [this.1, this.2])

/-- Everything `parseItems` accepts is element-wise canonical. -/
theorem parseItems_canonical : ∀ (f : Nat) (cs r : List Char) (es : List Json),
    parseItems f cs = some (es, r) → canonicalItems es = true
  | 0, cs, r, es, h => by simp [parseItems] at h
  | f + 1, cs, r, es, h => by
    simp only [parseItems] at h
    repeat' split at h
    all_goals
      first
      | contradiction
      | (rename_i hv hrest hx
         injection h with h1
         injection h1 with h2 h3
         subst h2
         simp only [canonicalItems, Bool.and_eq_true]
         exact ⟨parseValue_canonical f _ _ _ (by assumption),
           parseItems_canonical f _ _ _ hx⟩)
      | (injection h with h1
         injection h1 with h2 h3
         subst h2
         simp only [canonicalItems, Bool.and_eq_true]
         exact ⟨parseValue_canonical f _ _ _ (by assumption), trivial⟩)

/-- `parseMembers` keeps the accumulated member list sorted and canonical. -/
theorem parseMembers_canonical : ∀ (f : Nat) (cs : List Char) (acc : List (String × Json))
    (r : List Char) (ms : List (String × Json)),
    parseMembers f cs acc = some (ms, r) →
    keysSorted acc = true → canonicalMembers acc = true →
    keysSorted ms = true ∧ canonicalMembers ms = true
  | 0, cs, acc, r, ms, h, _, _ => by simp [parseMembers] at h
  | f + 1, cs, acc, r, ms, h, hs, hcm => by
    simp only [parseMembers] at h
    repeat' split at h
    all_goals
      first
      | contradiction
      | (rename_i hv hrest
         have hvc := parseValue_canonical f _ _ _ (by assumption)
         exact parseMembers_canonical f _ _ _ _ h (insertKey_sorted hs)
           (insertKey_canonMembers hvc hcm))
      | (rename_i hv hrest
         have hvc := parseValue_canonical f _ _ _ (by assumption)
         injection h with h1
         injection h1 with h2 h3
         subst h2
         exact ⟨insertKey_sorted hs, insertKey_canonMembers hvc hcm⟩)

end

/-- Everything `parseDoc` accepts is canonical. -/
theorem parseDoc_canonical {s : String} {v : Json} (h : parseDoc s = some v) :
    canonical v = true := by
  simp only [parseDoc] at h
  split at h
  · rename_i hx
    split at h
    · injection h with h1
      subst h1
      exact parseValue_canonical _ _ _ _ hx
    · cases h
  · cases h

/-- Parsing a rendered canonical value as a document recovers it. -/
theorem parseDoc_render {v : Json} (hc : canonical v = true) :
    parseDoc (renderJson v) = some v := by
  have hskip : skipWs (render v) = render v := by
    have h := skipWs_render v []
    simpa using h
  have hfuel : jsonSize v < (render v).length + 1 :=
    Nat.lt_succ_of_le (jsonSize_le_render v)
  have hrt := rt_val v ((render v).length + 1) [] hc hfuel rfl
  rw [List.append_nil] at hrt
  unfold parseDoc
  show (match parseValue ((skipWs (renderJson v).data).length + 1) (skipWs (renderJson v).data) with
        | some (v2, rest) => if skipWs rest = [] then some v2 else none
        | none => none) = some v
  rw [show (renderJson v).data = render v from rfl, hskip, hrt]
  rfl

/-- The provider's canonicalizer is idempotent: a second `normalizeJSON` of
any successful result returns it unchanged. -/
theorem normalizeJSON_idem {x y : String} (h : normalizeJSON x = some y) :
    normalizeJSON y = some y := by
  unfold normalizeJSON at h ⊢
  split at h
  · cases h
  · rename_i v hv
    injection h with h1
    subst h1
    rw [parseDoc_render (parseDoc_canonical hv)]

/-! ## The validator walk is fuel-stable above its size bound -/

theorem lookupField_size : ∀ {ms : List (String × Json)} {key : String} {w : Json},
    lookupField ms key = some w → jsonSize w + 1 ≤ membersSize ms := by
  intro ms
  induction ms with
  | nil => intro key w h; cases h
  | cons hd tl ih =>
    intro key w h
    match hd with
    | (k2, v2) =>
      simp only [lookupField] at h
      by_cases hk : k2 = key
      · simp only [hk, if_pos rfl] at h
        injection h with h1
        subst h1
        simp only [membersSize]
        omega
      · simp only [hk, if_false] at h
        have := ih h
        simp only [membersSize]
        omega

mutual

theorem treeStable : ∀ (f g : Nat) (v : Json) (p : String),
    jsonSize v < f → jsonSize v < g →
    validateConditionTree f v p = validateConditionTree g v p
  | f + 1, g + 1, v, p, hf, hg => by
    match v with
    | .null => rfl
    | .bool b => rfl
    | .num n => rfl
    | .str s => rfl
    | .obj fields =>
      have hf2 : membersSize fields + 2 < f + 1 := by simp only [jsonSize] at hf; omega
      have hg2 : membersSize fields + 2 < g + 1 := by simp only [jsonSize] at hg; omega
      obtain ⟨f2, rfl⟩ : ∃ f2, f = f2 + 1 := ⟨f - 1, by omega⟩
      obtain ⟨g2, rfl⟩ : ∃ g2, g = g2 + 1 := ⟨g - 1, by omega⟩
      exact objectStable f2 g2 fields p (by omega) (by omega)
    | .arr items =>
      exact itemsStable f g items p 0 (by simp only [jsonSize] at hf; omega)
        (by simp only [jsonSize] at hg; omega)

theorem itemsStable : ∀ (f g : Nat) (l : List Json) (p : String) (i : Nat),
    itemsSize l < f → itemsSize l < g →
    validateTreeItems f l p i = validateTreeItems g l p i
  | f + 1, g + 1, l, p, i, hf, hg => by
    match l with
    | [] => rfl
    | v :: vs =>
      show (match validateConditionTree f v (p ++ "[" ++ toString i ++ "]") with
            | .error e => (.error e : Except CondErr Unit)
            | .ok _ => validateTreeItems f vs p (i + 1)) =
          (match validateConditionTree g v (p ++ "[" ++ toString i ++ "]") with
            | .error e => .error e
            | .ok _ => validateTreeItems g vs p (i + 1))
      rw [treeStable f g v _ (by simp only [itemsSize] at hf; omega)
        (by simp only [itemsSize] at hg; omega)]
      rw [itemsStable f g vs p (i + 1) (by simp only [itemsSize] at hf; omega)
        (by simp only [itemsSize] at hg; omega)]

theorem operandStable : ∀ (f g : Nat) (l : List Json) (p op : String) (i : Nat),
    itemsSize l < f → itemsSize l < g →
    validateOperandArray f l p op i = validateOperandArray g l p op i
  | f + 1, g + 1, l, p, op, i, hf, hg => by
    match l with
    | [] => rfl
    | v :: vs =>
      match v with
      | .null | .bool _ | .num _ | .str _ | .arr _ => rfl
      | .obj fields =>
        have hf2 : membersSize fields + 2 + itemsSize vs + 1 ≤ f := by
          simp only [itemsSize, jsonSize] at hf; omega
        have hg2 : membersSize fields + 2 + itemsSize vs + 1 ≤ g := by
          simp only [itemsSize, jsonSize] at hg; omega
        obtain ⟨f2, rfl⟩ : ∃ f2, f = f2 + 1 := ⟨f - 1, by omega⟩
        obtain ⟨g2, rfl⟩ : ∃ g2, g = g2 + 1 := ⟨g - 1, by omega⟩
        show (match validateConditionObject (f2 + 1) fields
                (p ++ "." ++ op ++ "[" ++ toString i ++ "]") with
              | .error e => (.error e : Except CondErr Unit)
              | .ok _ => validateOperandArray (f2 + 1) vs p op (i + 1)) =
            (match validateConditionObject (g2 + 1) fields
                (p ++ "." ++ op ++ "[" ++ toString i ++ "]") with
              | .error e => .error e
              | .ok _ => validateOperandArray (g2 + 1) vs p op (i + 1))
        rw [objectStable f2 g2 fields _ (by omega) (by omega)]
        rw [operandStable (f2 + 1) (g2 + 1) vs p op (i + 1) (by omega) (by omega)]

theorem walkStable : ∀ (f g : Nat) (l : List (String × Json)) (p : String),
    membersSize l < f → membersSize l < g →
    validateFieldsWalk f l p = validateFieldsWalk g l p
  | f + 1, g + 1, l, p, hf, hg => by
    match l with
    | [] => rfl
    | (key, child) :: tl =>
      show (match validateConditionTree f child (p ++ "." ++ key) with
            | .error e => (.error e : Except CondErr Unit)
            | .ok _ => validateFieldsWalk f tl p) =
          (match validateConditionTree g child (p ++ "." ++ key) with
            | .error e => .error e
            | .ok _ => validateFieldsWalk g tl p)
      rw [treeStable f g child _ (by simp only [membersSize] at hf; omega)
        (by simp only [membersSize] at hg; omega)]
      rw [walkStable f g tl p (by simp only [membersSize] at hf; omega)
        (by simp only [membersSize] at hg; omega)]

theorem objectStable : ∀ (f g : Nat) (ms : List (String × Json)) (p : String),
    membersSize ms + 2 ≤ f + 1 → membersSize ms + 2 ≤ g + 1 →
    validateConditionObject (f + 1) ms p = validateConditionObject (g + 1) ms p
  | f, g, ms, p, hf, hg => by
    show (match presentOps ms with
          | [] => validateFieldsWalk f ms p
          | [op] =>
            match lookupField ms op with
            | none => Except.ok ()
            | some opVal =>
              if op = "and" ∨ op = "or" then
                match opVal with
                | .arr expressions =>
                  if expressions.isEmpty then .error (.emptyOperatorArray p op)
                  else validateOperandArray f expressions p op 0
                | _ => .error (.operatorNotArray p op)
              else if op = "not" then
                match opVal with
                | .obj fields => validateConditionObject f fields (p ++ ".not")
                | _ => .error (.notValueNotObject p)
              else
                match opVal with
                | .obj _ => Except.ok ()
                | _ => .error (.fieldValueNotObject p)
          | _ :: _ :: _ => .error (.multipleOperators p (presentOps ms))) =
        (match presentOps ms with
          | [] => validateFieldsWalk g ms p
          | [op] =>
            match lookupField ms op with
            | none => Except.ok ()
            | some opVal =>
              if op = "and" ∨ op = "or" then
                match opVal with
                | .arr expressions =>
                  if expressions.isEmpty then .error (.emptyOperatorArray p op)
                  else validateOperandArray g expressions p op 0
                | _ => .error (.operatorNotArray p op)
              else if op = "not" then
                match opVal with
                | .obj fields => validateConditionObject g fields (p ++ ".not")
                | _ => .error (.notValueNotObject p)
              else
                match opVal with
                | .obj _ => Except.ok ()
                | _ => .error (.fieldValueNotObject p)
          | _ :: _ :: _ => .error (.multipleOperators p (presentOps ms)))
    rcases hp : presentOps ms with _ | ⟨op, _ | ⟨op2, rest2⟩⟩
    · exact walkStable f g ms p (by omega) (by omega)
    case cons.cons => rfl
    · simp only []
      cases hlk : lookupField ms op with
      | none => rfl
      | some opVal =>
        simp only []
        have hsz := lookupField_size hlk
        by_cases hao : op = "and" ∨ op = "or"
        · rw [if_pos hao, if_pos hao]
          match opVal with
          | .null | .bool _ | .num _ | .str _ | .obj _ => rfl
          | .arr expressions =>
            simp only []
            by_cases he : expressions.isEmpty
            · rw [if_pos he, if_pos he]
            · rw [if_neg he, if_neg he]
              exact operandStable f g expressions p op 0
                (by simp only [jsonSize] at hsz; omega)
                (by simp only [jsonSize] at hsz; omega)
        · rw [if_neg hao, if_neg hao]
          by_cases hnot : op = "not"
          · rw [if_pos hnot, if_pos hnot]
            match opVal with
            | .null | .bool _ | .num _ | .str _ | .arr _ => rfl
            | .obj fields =>
              simp only []
              have hof : membersSize fields + 3 ≤ membersSize ms := by
                simp only [jsonSize] at hsz; omega
              obtain ⟨f2, rfl⟩ : ∃ f2, f = f2 + 1 := ⟨f - 1, by omega⟩
              obtain ⟨g2, rfl⟩ : ∃ g2, g = g2 + 1 := ⟨g - 1, by omega⟩
              exact objectStable f2 g2 fields _ (by omega) (by omega)
          · rw [if_neg hnot, if_neg hnot]

end

/-! ## What the validator walk visits -/

/-- `Visits v p w q`: starting the condition walk at value `v` with path `p`,
the walk reaches value `w` with path `q`.  This mirrors exactly the recursion
of `validateConditionTree`/`validateConditionObject`: arrays descend into
every element; objects with no operator key descend into every member;
a single `and`/`or` descends into the (object) elements of its array; a
single `not` descends into its object; a single `field` descends nowhere,
and neither do the other members of an object that has an operator key. -/
inductive Visits : Json → String → Json → String → Prop where
  | refl (v : Json) (p : String) : Visits v p v p
  | arrElem {v : Json} {p : String} {items : List Json} {q : String} {i : Nat} {w : Json} :
      Visits v p (.arr items) q → items[i]? = some w →
      Visits v p w (q ++ "[" ++ toString i ++ "]")
  | objMember {v : Json} {p : String} {ms : List (String × Json)} {q k : String} {w : Json} :
      Visits v p (.obj ms) q → presentOps ms = [] → (k, w) ∈ ms →
      Visits v p w (q ++ "." ++ k)
  | objAndOr {v : Json} {p : String} {ms : List (String × Json)} {q op : String}
      {es : List Json} {i : Nat} {fields : List (String × Json)} :
      Visits v p (.obj ms) q → presentOps ms = [op] → (op = "and" ∨ op = "or") →
      lookupField ms op = some (.arr es) → es[i]? = some (.obj fields) →
      Visits v p (.obj fields) (q ++ "." ++ op ++ "[" ++ toString i ++ "]")
  | objNot {v : Json} {p : String} {ms : List (String × Json)} {q : String}
      {fields : List (String × Json)} :
      Visits v p (.obj ms) q → presentOps ms = ["not"] →
      lookupField ms "not" = some (.obj fields) →
      Visits v p (.obj fields) (q ++ ".not")

/-- A validated array walk validates every element, at its canonical fuel. -/
theorem itemsOk_elem : ∀ (f : Nat) (l : List Json) (p : String) (i : Nat),
    itemsSize l < f → validateTreeItems f l p i = .ok () →
    ∀ (j : Nat) (w : Json), l[j]? = some w →
      validateConditionTree (jsonSize w + 1) w (p ++ "[" ++ toString (i + j) ++ "]") = .ok ()
  | f + 1, [], p, i, hs, h, j, w, hj => by simp at hj
  | f + 1, v :: vs, p, i, hs, h, j, w, hj => by
    simp only [validateTreeItems] at h
    cases htv : validateConditionTree f v (p ++ "[" ++ toString i ++ "]") with
    | error e => rw [htv] at h; simp at h
    | ok u =>
      rw [htv] at h
      simp only [] at h
      match j, hj with
      | 0, hj =>
        have hw : v = w := by simpa using hj
        subst hw
        show validateConditionTree (jsonSize v + 1) v (p ++ "[" ++ toString (i + 0) ++ "]")
            = .ok ()
        rw [show i + 0 = i from rfl,
          ← treeStable f (jsonSize v + 1) v _ (by simp only [itemsSize] at hs; omega) (by omega)]
        exact htv
      | j + 1, hj =>
        have hj2 : vs[j]? = some w := by simpa using hj
        have := itemsOk_elem f vs p (i + 1) (by simp only [itemsSize] at hs; omega) h j w hj2
        rw [show i + (j + 1) = i + 1 + j from by omega]
        exact this

/-- A validated member walk validates every member value, at its canonical
fuel. -/
theorem walkOk_member : ∀ (f : Nat) (l : List (String × Json)) (p : String),
    membersSize l < f → validateFieldsWalk f l p = .ok () →
    ∀ (k : String) (w : Json), (k, w) ∈ l →
      validateConditionTree (jsonSize w + 1) w (p ++ "." ++ k) = .ok ()
  | f + 1, [], p, hs, h, k, w, hk => by cases hk
  | f + 1, (k2, v2) :: tl, p, hs, h, k, w, hk => by
    simp only [validateFieldsWalk] at h
    cases htv : validateConditionTree f v2 (p ++ "." ++ k2) with
    | error e => rw [htv] at h; simp at h
    | ok u =>
      rw [htv] at h
      simp only [] at h
      rcases List.mem_cons.mp hk with hk | hk
      · injection hk with hk1 hk2
        subst hk1
        subst hk2
        rw [← treeStable f (jsonSize w + 1) w _ (by simp only [membersSize] at hs; omega)
          (by omega)]
        exact htv
      · exact walkOk_member f tl p (by simp only [membersSize] at hs; omega) h k w hk

/-- A validated `and`/`or` operand walk validates every element object, at
its canonical fuel. -/
theorem operandOk_elem : ∀ (f : Nat) (l : List Json) (p op : String) (i : Nat),
    itemsSize l < f → validateOperandArray f l p op i = .ok () →
    ∀ (j : Nat) (fields : List (String × Json)), l[j]? = some (.obj fields) →
      validateConditionTree (jsonSize (Json.obj fields) + 1) (.obj fields)
        (p ++ "." ++ op ++ "[" ++ toString (i + j) ++ "]") = .ok ()
  | f + 1, [], p, op, i, hs, h, j, fields, hj => by simp at hj
  | f + 1, v :: vs, p, op, i, hs, h, j, fields, hj => by
    simp only [validateOperandArray] at h
    match v, hs, h, hj with
    | .null, hs, h, hj => simp at h
    | .bool _, hs, h, hj => simp at h
    | .num _, hs, h, hj => simp at h
    | .str _, hs, h, hj => simp at h
    | .arr _, hs, h, hj => simp at h
    | .obj fields2, hs, h, hj =>
      simp only [] at h
      cases htv : validateConditionObject f fields2
          (p ++ "." ++ op ++ "[" ++ toString i ++ "]") with
      | error e => rw [htv] at h; simp at h
      | ok u =>
        rw [htv] at h
        simp only [] at h
        match j, hj with
        | 0, hj =>
          have hw : fields2 = fields := by
            have := hj
            simp only [List.getElem?_cons_zero, Option.some.injEq] at this
            cases this
            rfl
          subst hw
          show validateConditionTree (jsonSize (Json.obj fields2) + 1) (.obj fields2)
              (p ++ "." ++ op ++ "[" ++ toString (i + 0) ++ "]") = .ok ()
          rw [show i + 0 = i from rfl]
          show validateConditionObject (jsonSize (Json.obj fields2)) fields2
              (p ++ "." ++ op ++ "[" ++ toString i ++ "]") = .ok ()
          have hff : membersSize fields2 + 2 + 1 + itemsSize vs ≤ f := by
            simp only [itemsSize, jsonSize] at hs
            omega
          obtain ⟨f2, rfl⟩ : ∃ f2, f = f2 + 1 := ⟨f - 1, by omega⟩
          rw [show jsonSize (Json.obj fields2) = membersSize fields2 + 1 + 1 from by
            simp only [jsonSize]; omega]
          rw [← objectStable f2 (membersSize fields2 + 1) fields2 _ (by omega) (by omega)]
          exact htv
        | j + 1, hj =>
          have hj2 : vs[j]? = some (Json.obj fields) := by simpa using hj
          have := operandOk_elem f vs p op (i + 1)
            (by simp only [itemsSize] at hs; omega) h j fields hj2
          rw [show i + (j + 1) = i + 1 + j from by omega]
          exact this

/-- What a successful `validateConditionObject` step guarantees: at most one
operator key, and success of the dispatched sub-walk. -/
theorem objectOk_dispatch (f : Nat) (ms : List (String × Json)) (p : String)
    (hs : membersSize ms + 2 ≤ f + 1)
    (h : validateConditionObject (f + 1) ms p = .ok ()) :
    (presentOps ms).length ≤ 1 ∧
    (presentOps ms = [] → validateFieldsWalk f ms p = .ok ()) ∧
    (∀ op es, presentOps ms = [op] → (op = "and" ∨ op = "or") →
      lookupField ms op = some (.arr es) → validateOperandArray f es p op 0 = .ok ()) ∧
    (∀ fields, presentOps ms = ["not"] → lookupField ms "not" = some (.obj fields) →
      validateConditionObject f fields (p ++ ".not") = .ok ()) := by
  have hh : validateConditionObject (f + 1) ms p
      = (match presentOps ms with
        | [] => validateFieldsWalk f ms p
        | [op] =>
          match lookupField ms op with
          | none => Except.ok ()
          | some opVal =>
            if op = "and" ∨ op = "or" then
              match opVal with
              | Json.arr expressions =>
                if expressions.isEmpty then Except.error (CondErr.emptyOperatorArray p op)
                else validateOperandArray f expressions p op 0
              | _ => Except.error (CondErr.operatorNotArray p op)
            else if op = "not" then
              match opVal with
              | Json.obj fields => validateConditionObject f fields (p ++ ".not")
              | _ => Except.error (CondErr.notValueNotObject p)
            else
              match opVal with
              | Json.obj _ => Except.ok ()
              | _ => Except.error (CondErr.fieldValueNotObject p)
        | _ :: _ :: _ => Except.error (CondErr.multipleOperators p (presentOps ms))) := rfl
  rw [hh] at h
  rcases hp : presentOps ms with _ | ⟨op, _ | ⟨op2, rest2⟩⟩
  · rw [hp] at h
    simp only [] at h
    refine ⟨by simp, fun _ => h, ?_, ?_⟩
    · intro op es he
      simp at he
    · intro fields he
      simp at he
  · rw [hp] at h
    simp only [] at h
    refine ⟨by simp, by intro he; simp at he, ?_, ?_⟩
    · intro op3 es he hao hlk
      injection he with he1 he2
      subst he1
      rw [hlk] at h
      try simp only [] at h
      rw [if_pos hao] at h
      try simp only [] at h
      by_cases hemp : es.isEmpty
      · rw [if_pos hemp] at h; cases h
      · rw [if_neg hemp] at h; exact h
    · intro fields he hlk
      injection he with he1 he2
      subst he1
      rw [hlk] at h
      simp at h
      exact h
  · rw [hp] at h
    simp only [] at h
    cases h

/-- Along any visited path from a successfully validated root, the sub-walk
at the visited node also succeeds (at its canonical fuel). -/
theorem visits_ok {v : Json} {p : String} {w : Json} {q : String}
    (hvis : Visits v p w q)
    (hok : validateConditionTree (jsonSize v + 1) v p = .ok ()) :
    validateConditionTree (jsonSize w + 1) w q = .ok () := by
  induction hvis with
  | refl => exact hok
  | arrElem hsub hget ih =>
    rename_i items q2 i w2
    have hh := ih
    have hitems : validateTreeItems (jsonSize (Json.arr items)) items q2 0 = .ok () := hh
    have := itemsOk_elem (jsonSize (Json.arr items)) items q2 0
      (by simp only [jsonSize]; omega) hitems i w2 hget
    rw [show (0 : Nat) + i = i from by omega] at this
    exact this
  | objMember hsub hpres hmem ih =>
    rename_i ms q2 k w2
    have hh := ih
    have hobj : validateConditionObject (jsonSize (Json.obj ms)) ms q2 = .ok () := hh
    obtain ⟨f2, hf2⟩ : ∃ f2, jsonSize (Json.obj ms) = f2 + 1 :=
      ⟨jsonSize (Json.obj ms) - 1, by simp only [jsonSize]; omega⟩
    rw [hf2] at hobj
    have hdisp := objectOk_dispatch f2 ms q2 (by simp only [jsonSize] at hf2; omega) hobj
    exact walkOk_member f2 ms q2 (by simp only [jsonSize] at hf2; omega)
      (hdisp.2.1 hpres) k w2 hmem
  | objAndOr hsub hpres hao hlk hget ih =>
    rename_i ms q2 op es i fields
    have hh := ih
    have hobj : validateConditionObject (jsonSize (Json.obj ms)) ms q2 = .ok () := hh
    obtain ⟨f2, hf2⟩ : ∃ f2, jsonSize (Json.obj ms) = f2 + 1 :=
      ⟨jsonSize (Json.obj ms) - 1, by simp only [jsonSize]; omega⟩
    rw [hf2] at hobj
    have hdisp := objectOk_dispatch f2 ms q2 (by simp only [jsonSize] at hf2; omega) hobj
    have hop := hdisp.2.2.1 op es hpres hao hlk
    have hsz := lookupField_size hlk
    have := operandOk_elem f2 es q2 op 0
      (by simp only [jsonSize] at hsz hf2; omega) hop i fields hget
    rw [show (0 : Nat) + i = i from by omega] at this
    exact this
  | objNot hsub hpres hlk ih =>
    rename_i ms q2 fields
    have hh := ih
    have hobj : validateConditionObject (jsonSize (Json.obj ms)) ms q2 = .ok () := hh
    obtain ⟨f2, hf2⟩ : ∃ f2, jsonSize (Json.obj ms) = f2 + 1 :=
      ⟨jsonSize (Json.obj ms) - 1, by simp only [jsonSize]; omega⟩
    rw [hf2] at hobj
    have hdisp := objectOk_dispatch f2 ms q2 (by simp only [jsonSize] at hf2; omega) hobj
    have hnotok := hdisp.2.2.2 fields hpres hlk
    have hsz := lookupField_size hlk
    show validateConditionObject (jsonSize (Json.obj fields)) fields (q2 ++ ".not") = .ok ()
    obtain ⟨g2, hg2⟩ : ∃ g2, jsonSize (Json.obj fields) = g2 + 1 :=
      ⟨jsonSize (Json.obj fields) - 1, by simp only [jsonSize]; omega⟩
    rw [hg2]
    obtain ⟨f3, hf3⟩ : ∃ f3, f2 = f3 + 1 :=
      ⟨f2 - 1, by simp only [jsonSize] at hsz hf2; omega⟩
    rw [hf3] at hnotok
    rw [← objectStable f3 g2 fields (q2 ++ ".not")
      (by simp only [jsonSize] at hsz hf2 hg2; omega)
      (by simp only [jsonSize] at hg2; omega)]
    exact hnotok

/-! ## Claim C3: operator-key exclusivity -/

mutual

/-- Does any object node anywhere in the document carry two or more of the
operator keys `and`/`or`/`not`/`field`? -/
def hasMultiOpNode : Json → Bool
  | .arr es => hasMultiOpItems es
  | .obj ms => decide (2 ≤ (presentOps ms).length) || hasMultiOpMembers ms
  | _ => false

/-- `hasMultiOpNode` over the elements of an array. -/
def hasMultiOpItems : List Json → Bool
  | [] => false
  | v :: vs => hasMultiOpNode v || hasMultiOpItems vs

/-- `hasMultiOpNode` over the member values of an object. -/
def hasMultiOpMembers : List (String × Json) → Bool
  | [] => false
  | (_, v) :: ms => hasMultiOpNode v || hasMultiOpMembers ms

end

/-- A filter definition whose `hidden` member (sitting beside a `not`
operator key) is an object carrying both `and` and `or`: the validator's
walk never enters a sibling of an operator key. -/
def exHid : String :=
  "\x7b\"filter\":\x7b\"hidden\":\x7b\"and\":[],\"or\":[]\x7d,\"not\":\x7b\"field\":\x7b\x7d\x7d\x7d\x7d"

/-- A successful validation of a text forces the condition walk of its parse
to succeed. -/
theorem validate_ok_tree {text : String} {root : Json}
    (hp : parseDoc text = some root)
    (h : validateAuditLogFilterDefinition text = .ok ()) :
    validateConditionTree (jsonSize root + 1) root "$" = .ok () := by
  unfold validateAuditLogFilterDefinition at h
  rw [hp] at h
  cases root with
  | obj rootObject =>
    simp only [] at h
    cases hlk : lookupField rootObject "filter" with
    | none => rw [hlk] at h; cases h
    | some fv =>
      rw [hlk] at h
      simp only [] at h
      cases fv with
      | obj fms =>
        simp only [] at h
        cases hv : validateTree (Json.obj rootObject) with
        | error e => rw [hv] at h; cases h
        | ok u =>
          have h2 := hv
          unfold validateTree at h2
          exact h2
      | null => simp only [] at h; cases h
      | bool b => simp only [] at h; cases h
      | num n => simp only [] at h; cases h
      | str s => simp only [] at h; cases h
      | arr es => simp only [] at h; cases h
  | null => simp only [] at h; cases h
  | bool b => simp only [] at h; cases h
  | num n => simp only [] at h; cases h
  | str s => simp only [] at h; cases h
  | arr es => simp only [] at h; cases h

/-- **C3, counterexample.** A document accepted by
`validateAuditLogFilterDefinition` in which an object node carries both
`and` and `or`: a condition object that is a sibling of an operator key is
never visited, so its multiple operator keys go undetected, refuting the
claim that every such node is rejected regardless of nesting depth. -/
theorem c3_counterexample :
    validateAuditLogFilterDefinition exHid = .ok () ∧
    (parseDoc exHid).map hasMultiOpNode = some true := ⟨rfl, rfl⟩

/-! ## Claims C7 and C9: the canonicalizer -/

/-- **C7.** `normalizeJSON` is idempotent: whenever it succeeds, its result
canonicalizes to itself, so `canonicalize (canonicalize x) = canonicalize x`
on every `x` where it is defined. -/
theorem c7_normalize_idempotent {x y : String} (h : normalizeJSON x = some y) :
    normalizeJSON y = some y :=
  normalizeJSON_idem h

/-- Closed instance of C7 at a concrete input. -/
theorem c7_witness :
    normalizeJSON " \x7b \"filter\" : \x7b \x7d \x7d " = some "\x7b\"filter\":\x7b\x7d\x7d" ∧
    normalizeJSON "\x7b\"filter\":\x7b\x7d\x7d" = some "\x7b\"filter\":\x7b\x7d\x7d" :=
  have h1 : normalizeJSON " \x7b \"filter\" : \x7b \x7d \x7d "
      = some "\x7b\"filter\":\x7b\x7d\x7d" := rfl
  ⟨h1, c7_normalize_idempotent h1⟩

/-- **C9.** Validation success implies normalization success: whenever
`validateAuditLogFilterDefinition` returns no error, `normalizeJSON` of the
same text succeeds, so the "Invalid JSON Definition" branch Create and
Update take when normalization fails after successful validation is
unreachable. -/
theorem c9_validate_ok_normalize_succeeds {text : String}
    (h : validateAuditLogFilterDefinition text = .ok ()) :
    (normalizeJSON text).isSome = true := by
  unfold validateAuditLogFilterDefinition at h
  unfold normalizeJSON
  cases hp : parseDoc text with
  | none =>
    rw [hp] at h
    try simp only [] at h
    cases h
  | some v => rfl

/-- Closed instance of C9 at a concrete validated input. -/
theorem c9_witness :
    validateAuditLogFilterDefinition "\x7b\"filter\":\x7b\x7d\x7d" = .ok () ∧
    (normalizeJSON "\x7b\"filter\":\x7b\x7d\x7d").isSome = true :=
  ⟨rfl, c9_validate_ok_normalize_succeeds rfl⟩

/-! ## Claim C10: the validator never inspects a `field` value -/

mutual

/-- Two documents equal node for node, except that inside an object whose
operator-key set is exactly `["field"]`, the (object) value of the `field`
member may be replaced by an arbitrary object. -/
def fieldEquiv : Json → Json → Bool
  | .null, .null => true
  | .bool b, .bool b2 => b == b2
  | .num n, .num n2 => n == n2
  | .str s, .str s2 => s == s2
  | .arr es, .arr es2 => fieldEquivItems es es2
  | .obj ms, .obj ms2 => fieldEquivMembers (decide (presentOps ms = ["field"])) ms ms2
  | _, _ => false

/-- `fieldEquiv`, element-wise over arrays. -/
def fieldEquivItems : List Json → List Json → Bool
  | [], [] => true
  | v :: vs, w :: ws => fieldEquiv v w && fieldEquivItems vs ws
  | _, _ => false

/-- `fieldEquiv`, member-wise over objects: keys agree pairwise, and each
pair of values is `fieldEquiv` — except the values of a `field` key under a
`field`-operator object (`relax = true`), which only need both be objects. -/
def fieldEquivMembers : Bool → List (String × Json) → List (String × Json) → Bool
  | _, [], [] => true
  | relax, (k, v) :: tl, (k2, v2) :: tl2 =>
    k == k2 &&
      (if relax && k == "field" then
        (match v, v2 with
         | .obj _, .obj _ => true
         | _, _ => false)
       else fieldEquiv v v2) &&
      fieldEquivMembers relax tl tl2
  | _, _, _ => false

end

theorem fieldEquivMembers_cons {r : Bool} {k k2 : String} {v v2 : Json}
    {tl tl2 : List (String × Json)} :
    fieldEquivMembers r ((k, v) :: tl) ((k2, v2) :: tl2) = true ↔
    (k = k2 ∧ (if r && k == "field" then
        (match v, v2 with
         | Json.obj _, Json.obj _ => true
         | _, _ => false)
       else fieldEquiv v v2) = true ∧ fieldEquivMembers r tl tl2 = true) := by
  simp [fieldEquivMembers, Bool.and_assoc]

theorem fieldEquiv_null : ∀ {w : Json}, fieldEquiv .null w = true → w = .null := by
  intro w h
  cases w with
  | null => rfl
  | bool b => exact Bool.noConfusion h
  | num n => exact Bool.noConfusion h
  | str s => exact Bool.noConfusion h
  | arr es => exact Bool.noConfusion h
  | obj ms => exact Bool.noConfusion h

theorem fieldEquiv_bool {b : Bool} : ∀ {w : Json},
    fieldEquiv (.bool b) w = true → w = .bool b := by
  intro w h
  cases w with
  | bool b2 => exact congrArg Json.bool (eq_of_beq (show (b == b2) = true from h)).symm
  | null => exact Bool.noConfusion h
  | num n => exact Bool.noConfusion h
  | str s => exact Bool.noConfusion h
  | arr es => exact Bool.noConfusion h
  | obj ms => exact Bool.noConfusion h

theorem fieldEquiv_num {n : Int} : ∀ {w : Json},
    fieldEquiv (.num n) w = true → w = .num n := by
  intro w h
  cases w with
  | num n2 => exact congrArg Json.num (eq_of_beq (show (n == n2) = true from h)).symm
  | null => exact Bool.noConfusion h
  | bool b => exact Bool.noConfusion h
  | str s => exact Bool.noConfusion h
  | arr es => exact Bool.noConfusion h
  | obj ms => exact Bool.noConfusion h

theorem fieldEquiv_str {s : String} : ∀ {w : Json},
    fieldEquiv (.str s) w = true → w = .str s := by
  intro w h
  cases w with
  | str s2 => exact congrArg Json.str (eq_of_beq (show (s == s2) = true from h)).symm
  | null => exact Bool.noConfusion h
  | bool b => exact Bool.noConfusion h
  | num n => exact Bool.noConfusion h
  | arr es => exact Bool.noConfusion h
  | obj ms => exact Bool.noConfusion h

theorem fieldEquiv_arr {es : List Json} : ∀ {w : Json},
    fieldEquiv (.arr es) w = true →
    ∃ es2, w = .arr es2 ∧ fieldEquivItems es es2 = true := by
  intro w h
  cases w with
  | arr es2 => exact ⟨es2, rfl, h⟩
  | null => exact Bool.noConfusion h
  | bool b => exact Bool.noConfusion h
  | num n => exact Bool.noConfusion h
  | str s => exact Bool.noConfusion h
  | obj ms => exact Bool.noConfusion h

theorem fieldEquiv_obj {ms : List (String × Json)} : ∀ {w : Json},
    fieldEquiv (.obj ms) w = true →
    ∃ ms2, w = .obj ms2 ∧
      fieldEquivMembers (decide (presentOps ms = ["field"])) ms ms2 = true := by
  intro w h
  cases w with
  | obj ms2 => exact ⟨ms2, rfl, h⟩
  | null => exact Bool.noConfusion h
  | bool b => exact Bool.noConfusion h
  | num n => exact Bool.noConfusion h
  | str s => exact Bool.noConfusion h
  | arr es => exact Bool.noConfusion h

theorem fieldEquivItems_length : ∀ {l l2 : List Json},
    fieldEquivItems l l2 = true → l.length = l2.length
  | [], [], _ => rfl
  | [], _ :: _, h => Bool.noConfusion h
  | _ :: _, [], h => Bool.noConfusion h
  | v :: vs, w :: ws, h => by
    simp only [fieldEquivItems, Bool.and_eq_true] at h
    simp only [List.length_cons, fieldEquivItems_length h.2]

theorem fieldEquivMembers_isSome : ∀ {r : Bool} {ms ms2 : List (String × Json)},
    fieldEquivMembers r ms ms2 = true → ∀ (key : String),
    (lookupField ms key).isSome = (lookupField ms2 key).isSome := by
  intro r ms
  induction ms with
  | nil =>
    intro ms2 h key
    cases ms2 with
    | nil => rfl
    | cons x xs => exact Bool.noConfusion h
  | cons m tl ih =>
    intro ms2 h key
    obtain ⟨k, v⟩ := m
    cases ms2 with
    | nil => exact Bool.noConfusion h
    | cons m2 tl2 =>
      obtain ⟨k2, v2⟩ := m2
      obtain ⟨hk, _, htl⟩ := fieldEquivMembers_cons.mp h
      subst hk
      simp only [lookupField]
      by_cases hkey : k = key
      · rw [if_pos hkey, if_pos hkey]
        rfl
      · rw [if_neg hkey, if_neg hkey]
        exact ih htl key

theorem presentOps_fieldEquiv {r : Bool} {ms ms2 : List (String × Json)}
    (h : fieldEquivMembers r ms ms2 = true) : presentOps ms = presentOps ms2 := by
  unfold presentOps
  exact List.filter_congr (fun k _ => by rw [fieldEquivMembers_isSome h k])

/-- Looking up any non-`field` key (or any key at all when `relax = false`)
through the member relation gives related values. -/
theorem lookupField_fieldEquiv : ∀ {r : Bool} {ms ms2 : List (String × Json)},
    fieldEquivMembers r ms ms2 = true → ∀ {key : String},
    (r = true → key ≠ "field") → ∀ {v : Json},
    lookupField ms key = some v →
    ∃ v2, lookupField ms2 key = some v2 ∧ fieldEquiv v v2 = true := by
  intro r ms
  induction ms with
  | nil =>
    intro ms2 h key hkf v hlk
    exact Option.noConfusion hlk
  | cons m tl ih =>
    intro ms2 h key hkf v hlk
    obtain ⟨k, kv⟩ := m
    cases ms2 with
    | nil => exact Bool.noConfusion h
    | cons m2 tl2 =>
      obtain ⟨k2, v2⟩ := m2
      obtain ⟨hk, hval, htl⟩ := fieldEquivMembers_cons.mp h
      subst hk
      simp only [lookupField] at hlk ⊢
      by_cases hkey : k = key
      · rw [if_pos hkey] at hlk ⊢
        injection hlk with hlk
        subst hlk
        refine ⟨v2, rfl, ?_⟩
        have hcond : (r && k == "field") = false := by
          cases r with
          | false => rfl
          | true =>
            have := hkf rfl
            simp only [Bool.true_and, beq_eq_false_iff_ne, ne_eq]
            exact fun hc => this (hkey ▸ hc)
        rw [hcond] at hval
        simpa using hval
      · rw [if_neg hkey] at hlk ⊢
        exact ih htl hkf hlk

/-- Looking up `field` under a `field`-operator object: both values are
objects. -/
theorem lookupField_fieldEquiv_field : ∀ {ms ms2 : List (String × Json)},
    fieldEquivMembers true ms ms2 = true → ∀ {v : Json},
    lookupField ms "field" = some v →
    (∃ a, v = .obj a) ∧ (∃ b, lookupField ms2 "field" = some (.obj b)) := by
  intro ms
  induction ms with
  | nil =>
    intro ms2 h v hlk
    exact Option.noConfusion hlk
  | cons m tl ih =>
    intro ms2 h v hlk
    obtain ⟨k, kv⟩ := m
    cases ms2 with
    | nil => exact Bool.noConfusion h
    | cons m2 tl2 =>
      obtain ⟨k2, v2⟩ := m2
      obtain ⟨hk, hval, htl⟩ := fieldEquivMembers_cons.mp h
      subst hk
      simp only [lookupField] at hlk ⊢
      by_cases hkey : k = "field"
      · rw [if_pos hkey] at hlk ⊢
        injection hlk with hlk
        subst hlk
        rw [hkey] at hval
        simp only [show (true && ("field" : String) == "field") = true from rfl,
          if_true] at hval
        match kv, v2, hval with
        | .obj a, .obj b, _ => exact ⟨⟨a, rfl⟩, ⟨b, rfl⟩⟩
      · rw [if_neg hkey] at hlk ⊢
        exact ih htl hlk

/-- Unfolding of one `validateConditionObject` step. -/
theorem validateConditionObject_succ (f : Nat) (ms : List (String × Json)) (p : String) :
    validateConditionObject (f + 1) ms p
      = (match presentOps ms with
        | [] => validateFieldsWalk f ms p
        | [op] =>
          match lookupField ms op with
          | none => Except.ok ()
          | some opVal =>
            if op = "and" ∨ op = "or" then
              match opVal with
              | Json.arr expressions =>
                if expressions.isEmpty then Except.error (CondErr.emptyOperatorArray p op)
                else validateOperandArray f expressions p op 0
              | _ => Except.error (CondErr.operatorNotArray p op)
            else if op = "not" then
              match opVal with
              | Json.obj fields => validateConditionObject f fields (p ++ ".not")
              | _ => Except.error (CondErr.notValueNotObject p)
            else
              match opVal with
              | Json.obj _ => Except.ok ()
              | _ => Except.error (CondErr.fieldValueNotObject p)
        | _ :: _ :: _ => Except.error (CondErr.multipleOperators p (presentOps ms))) := rfl

mutual

/-- The condition walk is a congruence for `fieldEquiv`: replacing `field`
values (by arbitrary objects) in a successfully validated tree keeps it
successfully validated. -/
theorem treeCong : ∀ (f g : Nat) (v w : Json) (p : String),
    jsonSize v < f → jsonSize w < g → fieldEquiv v w = true →
    validateConditionTree f v p = .ok () → validateConditionTree g w p = .ok ()
  | f + 1, g + 1, v, w, p, hf, hg, hr, h => by
    match v, hr, h with
    | .null, hr, h => rw [fieldEquiv_null hr]; rfl
    | .bool b, hr, h => rw [fieldEquiv_bool hr]; rfl
    | .num n, hr, h => rw [fieldEquiv_num hr]; rfl
    | .str s, hr, h => rw [fieldEquiv_str hr]; rfl
    | .arr es, hr, h =>
      obtain ⟨es2, rfl, hitems⟩ := fieldEquiv_arr hr
      have h2 : validateTreeItems f es p 0 = .ok () := h
      show validateTreeItems g es2 p 0 = .ok ()
      exact itemsCong f g es es2 p 0 (by simp only [jsonSize] at hf; omega)
        (by simp only [jsonSize] at hg; omega) hitems h2
    | .obj ms, hr, h =>
      obtain ⟨ms2, rfl, hmem⟩ := fieldEquiv_obj hr
      have h2 : validateConditionObject f ms p = .ok () := h
      obtain ⟨f2, rfl⟩ : ∃ f2, f = f2 + 1 :=
        ⟨f - 1, by simp only [jsonSize] at hf; omega⟩
      obtain ⟨g2, rfl⟩ : ∃ g2, g = g2 + 1 :=
        ⟨g - 1, by simp only [jsonSize] at hg; omega⟩
      show validateConditionObject (g2 + 1) ms2 p = .ok ()
      exact objectCong f2 g2 ms ms2 p (by simp only [jsonSize] at hf; omega)
        (by simp only [jsonSize] at hg; omega) hmem h2

/-- `treeCong`, through the array walk. -/
theorem itemsCong : ∀ (f g : Nat) (l l2 : List Json) (p : String) (i : Nat),
    itemsSize l < f → itemsSize l2 < g → fieldEquivItems l l2 = true →
    validateTreeItems f l p i = .ok () → validateTreeItems g l2 p i = .ok ()
  | f + 1, g + 1, l, l2, p, i, hf, hg, hr, h => by
    match l, l2, hr with
    | [], [], _ => rfl
    | [], w :: ws, hr => exact Bool.noConfusion hr
    | v :: vs, [], hr => exact Bool.noConfusion hr
    | v :: vs, w :: ws, hr =>
      simp only [fieldEquivItems, Bool.and_eq_true] at hr
      obtain ⟨hvw, hrest⟩ := hr
      simp only [validateTreeItems] at h
      cases htv : validateConditionTree f v (p ++ "[" ++ toString i ++ "]") with
      | error e => rw [htv] at h; simp at h
      | ok u =>
        rw [htv] at h
        simp only [] at h
        have hw := treeCong f g v w (p ++ "[" ++ toString i ++ "]")
          (by simp only [itemsSize] at hf; omega)
          (by simp only [itemsSize] at hg; omega) hvw htv
        show (match validateConditionTree g w (p ++ "[" ++ toString i ++ "]") with
              | .error e => (.error e : Except CondErr Unit)
              | .ok _ => validateTreeItems g ws p (i + 1)) = .ok ()
        rw [hw]
        exact itemsCong f g vs ws p (i + 1) (by simp only [itemsSize] at hf; omega)
          (by simp only [itemsSize] at hg; omega) hrest h

/-- `treeCong`, through the `and`/`or` operand walk. -/
theorem operandCong : ∀ (f g : Nat) (l l2 : List Json) (p op : String) (i : Nat),
    itemsSize l < f → itemsSize l2 < g → fieldEquivItems l l2 = true →
    validateOperandArray f l p op i = .ok () → validateOperandArray g l2 p op i = .ok ()
  | f + 1, g + 1, l, l2, p, op, i, hf, hg, hr, h => by
    match l, l2, hr with
    | [], [], _ => rfl
    | [], w :: ws, hr => exact Bool.noConfusion hr
    | v :: vs, [], hr => exact Bool.noConfusion hr
    | v :: vs, w :: ws, hr =>
      simp only [fieldEquivItems, Bool.and_eq_true] at hr
      obtain ⟨hvw, hrest⟩ := hr
      simp only [validateOperandArray] at h
      match v, hvw, hf, h with
      | .null, hvw, hf, h => exact absurd h (by simp)
      | .bool _, hvw, hf, h => exact absurd h (by simp)
      | .num _, hvw, hf, h => exact absurd h (by simp)
      | .str _, hvw, hf, h => exact absurd h (by simp)
      | .arr _, hvw, hf, h => exact absurd h (by simp)
      | .obj fields, hvw, hf, h =>
        obtain ⟨fields2, rfl, hmem⟩ := fieldEquiv_obj hvw
        simp only [] at h
        cases hob : validateConditionObject f fields
            (p ++ "." ++ op ++ "[" ++ toString i ++ "]") with
        | error e => rw [hob] at h; simp at h
        | ok u =>
          rw [hob] at h
          simp only [] at h
          obtain ⟨f2, rfl⟩ : ∃ f2, f = f2 + 1 :=
            ⟨f - 1, by simp only [itemsSize, jsonSize] at hf; omega⟩
          obtain ⟨g2, rfl⟩ : ∃ g2, g = g2 + 1 :=
            ⟨g - 1, by simp only [itemsSize, jsonSize] at hg; omega⟩
          have hob2 := objectCong f2 g2 fields fields2
            (p ++ "." ++ op ++ "[" ++ toString i ++ "]")
            (by simp only [itemsSize, jsonSize] at hf; omega)
            (by simp only [itemsSize, jsonSize] at hg; omega) hmem hob
          show (match validateConditionObject (g2 + 1) fields2
                  (p ++ "." ++ op ++ "[" ++ toString i ++ "]") with
                | .error e => (.error e : Except CondErr Unit)
                | .ok _ => validateOperandArray (g2 + 1) ws p op (i + 1)) = .ok ()
          rw [hob2]
          exact operandCong (f2 + 1) (g2 + 1) vs ws p op (i + 1)
            (by simp only [itemsSize] at hf; omega)
            (by simp only [itemsSize] at hg; omega) hrest h

/-- `treeCong`, through the operator-free member walk. -/
theorem walkCong : ∀ (f g : Nat) (l l2 : List (String × Json)) (p : String),
    membersSize l < f → membersSize l2 < g → fieldEquivMembers false l l2 = true →
    validateFieldsWalk f l p = .ok () → validateFieldsWalk g l2 p = .ok ()
  | f + 1, g + 1, l, l2, p, hf, hg, hr, h => by
    match l, l2, hr with
    | [], [], _ => rfl
    | [], x :: xs, hr => exact Bool.noConfusion hr
    | x :: xs, [], hr => exact Bool.noConfusion hr
    | (k, v) :: tl, (k2, v2) :: tl2, hr =>
      obtain ⟨hk, hv, htl⟩ := fieldEquivMembers_cons.mp hr
      subst hk
      simp only [Bool.false_and] at hv
      rw [if_neg (by simp)] at hv
      simp only [validateFieldsWalk] at h
      cases htv : validateConditionTree f v (p ++ "." ++ k) with
      | error e => rw [htv] at h; simp at h
      | ok u =>
        rw [htv] at h
        simp only [] at h
        have hw := treeCong f g v v2 (p ++ "." ++ k)
          (by simp only [membersSize] at hf; omega)
          (by simp only [membersSize] at hg; omega) hv htv
        show (match validateConditionTree g v2 (p ++ "." ++ k) with
              | .error e => (.error e : Except CondErr Unit)
              | .ok _ => validateFieldsWalk g tl2 p) = .ok ()
        rw [hw]
        exact walkCong f g tl tl2 p (by simp only [membersSize] at hf; omega)
          (by simp only [membersSize] at hg; omega) htl h

/-- `treeCong`, through one condition-object step. -/
theorem objectCong : ∀ (f g : Nat) (ms ms2 : List (String × Json)) (p : String),
    membersSize ms + 2 ≤ f + 1 → membersSize ms2 + 2 ≤ g + 1 →
    fieldEquivMembers (decide (presentOps ms = ["field"])) ms ms2 = true →
    validateConditionObject (f + 1) ms p = .ok () →
    validateConditionObject (g + 1) ms2 p = .ok ()
  | f, g, ms, ms2, p, hf, hg, hr, h => by
    have hpre := presentOps_fieldEquiv hr
    rw [validateConditionObject_succ] at h
    rw [validateConditionObject_succ, ← hpre]
    rcases hp : presentOps ms with _ | ⟨op, _ | ⟨op2, rest2⟩⟩
    · rw [hp] at h
      simp only [] at h ⊢
      have hr0 : fieldEquivMembers false ms ms2 = true := by rw [hp] at hr; exact hr
      exact walkCong f g ms ms2 p (by omega) (by omega) hr0 h
    case cons.cons =>
      rw [hp] at h
      simp only [] at h
      cases h
    · have hopin : op ∈ presentOps ms := by rw [hp]; exact List.mem_singleton_self op
      simp only [presentOps] at hopin
      have hmemf := List.mem_filter.mp hopin
      have hsome : (lookupField ms op).isSome = true := hmemf.2
      have hops : op = "and" ∨ op = "or" ∨ op = "not" ∨ op = "field" := by
        have := hmemf.1
        simpa [operatorKeys] using this
      rw [hp] at h
      simp only [] at h ⊢
      cases hlk : lookupField ms op with
      | none => rw [hlk] at hsome; exact Bool.noConfusion hsome
      | some opVal =>
        rw [hlk] at h
        simp only [] at h
        by_cases hao : op = "and" ∨ op = "or"
        · rw [if_pos hao] at h
          have hne : presentOps ms ≠ ["field"] := by
            rw [hp]
            intro hcc
            injection hcc with h1 _
            rcases hao with h2 | h2 <;> rw [h2] at h1 <;> exact absurd h1 (by simp)
          have hr0 : fieldEquivMembers false ms ms2 = true := by
            rw [show (decide (presentOps ms = ["field"])) = false from by
              simp [hne]] at hr
            exact hr
          obtain ⟨opVal2, hlk2, hvv⟩ :=
            lookupField_fieldEquiv hr0 (fun hcc => absurd hcc (by simp)) hlk
          rw [hlk2]
          simp only []
          rw [if_pos hao]
          match opVal, hvv, h with
          | .null, hvv, h => simp only [] at h; cases h
          | .bool _, hvv, h => simp only [] at h; cases h
          | .num _, hvv, h => simp only [] at h; cases h
          | .str _, hvv, h => simp only [] at h; cases h
          | .obj _, hvv, h => simp only [] at h; cases h
          | .arr es, hvv, h =>
            obtain ⟨es2, rfl, hitems⟩ := fieldEquiv_arr hvv
            simp only [] at h ⊢
            by_cases hemp : es.isEmpty
            · rw [if_pos hemp] at h; cases h
            · rw [if_neg hemp] at h
              have hlen := fieldEquivItems_length hitems
              have hemp2 : es2.isEmpty = false := by
                cases es2 with
                | nil =>
                  cases es with
                  | nil => exact absurd rfl hemp
                  | cons a as => exact absurd hlen (by simp)
                | cons b bs => rfl
              rw [if_neg (show ¬(es2.isEmpty = true) from by rw [hemp2]; simp)]
              have hsz := lookupField_size hlk
              have hsz2 := lookupField_size hlk2
              exact operandCong f g es es2 p op 0
                (by simp only [jsonSize] at hsz; omega)
                (by simp only [jsonSize] at hsz2; omega) hitems h
        · rw [if_neg hao] at h
          by_cases hnot : op = "not"
          · rw [if_pos hnot] at h
            have hne : presentOps ms ≠ ["field"] := by
              rw [hp]
              intro hcc
              injection hcc with h1 _
              rw [hnot] at h1
              exact absurd h1 (by simp)
            have hr0 : fieldEquivMembers false ms ms2 = true := by
              rw [show (decide (presentOps ms = ["field"])) = false from by
                simp [hne]] at hr
              exact hr
            obtain ⟨opVal2, hlk2, hvv⟩ :=
              lookupField_fieldEquiv hr0 (fun hcc => absurd hcc (by simp)) hlk
            rw [hlk2]
            simp only []
            rw [if_neg hao, if_pos hnot]
            match opVal, hvv, h with
            | .null, hvv, h => simp only [] at h; cases h
            | .bool _, hvv, h => simp only [] at h; cases h
            | .num _, hvv, h => simp only [] at h; cases h
            | .str _, hvv, h => simp only [] at h; cases h
            | .arr _, hvv, h => simp only [] at h; cases h
            | .obj fields, hvv, h =>
              obtain ⟨fields2, rfl, hmem2⟩ := fieldEquiv_obj hvv
              simp only [] at h ⊢
              have hsz := lookupField_size hlk
              have hsz2 := lookupField_size hlk2
              obtain ⟨f2, rfl⟩ : ∃ f2, f = f2 + 1 :=
                ⟨f - 1, by simp only [jsonSize] at hsz; omega⟩
              obtain ⟨g2, rfl⟩ : ∃ g2, g = g2 + 1 :=
                ⟨g - 1, by simp only [jsonSize] at hsz2; omega⟩
              exact objectCong f2 g2 fields fields2 (p ++ ".not")
                (by simp only [jsonSize] at hsz; omega)
                (by simp only [jsonSize] at hsz2; omega) hmem2 h
          · have hopf : op = "field" := by
              rcases hops with h1 | h1 | h1 | h1
              · exact absurd (Or.inl h1) hao
              · exact absurd (Or.inr h1) hao
              · exact absurd h1 hnot
              · exact h1
            subst hopf
            have hr1 : fieldEquivMembers true ms ms2 = true := by
              rw [show (decide (presentOps ms = ["field"])) = true from by
                rw [hp]; decide] at hr
              exact hr
            obtain ⟨⟨a, hva⟩, ⟨b, hlk2⟩⟩ := lookupField_fieldEquiv_field hr1 hlk
            rw [hlk2]
            simp only []
            rw [if_neg hao, if_neg hnot]

end

/-- A successful validation of a parsed text pins the whole shape the entry
point checks: an object root, an object-valued `filter` key, and a
successful condition walk. -/
theorem validate_ok_inv {text : String} {root : Json}
    (hp : parseDoc text = some root)
    (h : validateAuditLogFilterDefinition text = .ok ()) :
    ∃ rms fms, root = .obj rms ∧ lookupField rms "filter" = some (.obj fms) ∧
      validateTree root = .ok () := by
  unfold validateAuditLogFilterDefinition at h
  rw [hp] at h
  cases root with
  | obj rootObject =>
    simp only [] at h
    cases hlk : lookupField rootObject "filter" with
    | none => rw [hlk] at h; cases h
    | some fv =>
      rw [hlk] at h
      simp only [] at h
      cases fv with
      | obj fms =>
        simp only [] at h
        cases hv : validateTree (Json.obj rootObject) with
        | error e => rw [hv] at h; cases h
        | ok u =>
          cases u
          exact ⟨rootObject, fms, rfl, hlk, rfl⟩
      | null => simp only [] at h; cases h
      | bool b => simp only [] at h; cases h
      | num n => simp only [] at h; cases h
      | str s => simp only [] at h; cases h
      | arr es => simp only [] at h; cases h
  | null => simp only [] at h; cases h
  | bool b => simp only [] at h; cases h
  | num n => simp only [] at h; cases h
  | str s => simp only [] at h; cases h
  | arr es => simp only [] at h; cases h

/-- **C10.** The validator never inspects a `field` operator's value: for
any two parsed definitions related by `fieldEquiv` — identical except that
the (object) values of `field` operator keys may be replaced by arbitrary
objects, including objects carrying several of `and`/`or`/`not`/`field` —
acceptance of the first implies acceptance of the second. -/
theorem c10_field_value_opaque {x y : String} {v w : Json}
    (hpx : parseDoc x = some v) (hpy : parseDoc y = some w)
    (hrel : fieldEquiv v w = true)
    (hok : validateAuditLogFilterDefinition x = .ok ()) :
    validateAuditLogFilterDefinition y = .ok () := by
  obtain ⟨rms, fms, rfl, hlk, htree⟩ := validate_ok_inv hpx hok
  obtain ⟨rms2, rfl, hmem⟩ := fieldEquiv_obj hrel
  obtain ⟨fv2, hlk2, hvv⟩ :=
    lookupField_fieldEquiv hmem (fun _ => by simp) hlk
  obtain ⟨fms2, rfl, _⟩ := fieldEquiv_obj hvv
  have htree2 : validateTree (Json.obj rms2) = .ok () := by
    unfold validateTree at htree ⊢
    exact treeCong (jsonSize (Json.obj rms) + 1) (jsonSize (Json.obj rms2) + 1)
      _ _ "$" (by omega) (by omega) hrel htree
  unfold validateAuditLogFilterDefinition
  rw [hpy]
  simp only []
  rw [hlk2]
  simp only []
  rw [htree2]

/-- Closed instance of C10: a `field` value replaced by an object that
itself carries both `and` and `or` is still accepted. -/
theorem c10_witness :
    validateAuditLogFilterDefinition
      "\x7b\"filter\":\x7b\"field\":\x7b\"name\":\"a\"\x7d\x7d\x7d" = .ok () ∧
    fieldEquiv
      (Json.obj [("filter", Json.obj [("field", Json.obj [("name", Json.str "a")])])])
      (Json.obj [("filter", Json.obj
        [("field", Json.obj [("and", Json.arr []), ("or", Json.arr [])])])]) = true ∧
    validateAuditLogFilterDefinition
      "\x7b\"filter\":\x7b\"field\":\x7b\"and\":[],\"or\":[]\x7d\x7d\x7d" = .ok () :=
  have hx : parseDoc "\x7b\"filter\":\x7b\"field\":\x7b\"name\":\"a\"\x7d\x7d\x7d"
      = some (Json.obj [("filter", Json.obj
        [("field", Json.obj [("name", Json.str "a")])])]) := rfl
  have hy : parseDoc "\x7b\"filter\":\x7b\"field\":\x7b\"and\":[],\"or\":[]\x7d\x7d\x7d"
      = some (Json.obj [("filter", Json.obj
        [("field", Json.obj [("and", Json.arr []), ("or", Json.arr [])])])]) := rfl
  ⟨rfl, rfl, c10_field_value_opaque hx hy rfl rfl⟩

/-! ## The Create/Update orchestration against a modelled store

`AuditLogFilterResource.Create` and `.Update` issue a fixed sequence of SQL
reads and audit-log-UDF calls.  The store is modelled as the two tables the
provider touches plus a fresh-id counter; each call's outcome is drawn from
a fault schedule (`List Eff`): transport success (the call acts honestly on
the store), a UDF result string, or a transport error.  Diagnostics carry
the exact Go message strings (attribute paths and the wrapped decoder text
of `normalizeJSON` errors are omitted, as in `ValErr.malformedJSON`). -/

/-- A user assignment row of `mysql.audit_log_user`. -/
structure Assignment where
  username : String
  userhost : String
deriving DecidableEq

/-- A filter row of `mysql.audit_log_filter`. -/
structure FilterRec where
  name : String
  filterId : Int
  definition : String
deriving DecidableEq

/-- The modelled MySQL store. -/
structure Store where
  filters : List FilterRec
  users : List (Assignment × String)
  nextId : Int
deriving DecidableEq

/-- One injected outcome for one store call: transport success (the call is
performed honestly), a result string returned by an audit-log UDF (the
operation is performed exactly when it is `"OK"`), or a transport error. -/
inductive Eff where
  | ok
  | res (s : String)
  | fail (msg : String)
deriving DecidableEq

/-- Head of the fault schedule; an exhausted schedule behaves honestly. -/
def takeEff : List Eff → Eff × List Eff
  | [] => (.ok, [])
  | e :: es => (e, es)

/-- Transport error? -/
def Eff.isFail : Eff → Bool
  | .fail _ => true
  | _ => false

/-- Does a mutation step with this outcome miss: transport error or a
result other than `"OK"`? -/
def Eff.notOK : Eff → Bool
  | .ok => false
  | .res s => s != "OK"
  | .fail _ => true

/-- The SQL/UDF calls Create and Update issue, in issue order. -/
inductive Call where
  | countFilters (name : String)
  | readFilter (name : String)
  | readAssignments (name : String)
  | removeFilter (name : String)
  | setFilter (name definition : String)
  | setUser (userSpec filterName : String)
  | readFilterId (name : String)
deriving DecidableEq

/-- A diagnostic, as added to `resp.Diagnostics`. -/
inductive Diag where
  | error (title body : String)
  | warning (title body : String)
deriving DecidableEq

/-- The Terraform state Create/Update write back on success. -/
structure TFState where
  id : String
  name : String
  definition : String
  filterId : Int
deriving DecidableEq

/-- Observable outcome of one Create/Update invocation: diagnostics in the
order added, store calls in the order issued, the final store, and the
state written back (`none` when the handler returns without `State.Set`). -/
structure RunOut where
  diags : List Diag
  trace : List Call
  store : Store
  state : Option TFState

/-- `SELECT ... FROM mysql.audit_log_filter WHERE name = ?`, first row. -/
def lookupFilter (st : Store) (name : String) : Option FilterRec :=
  st.filters.find? (fun r => r.name == name)

/-- `SELECT COUNT(*) FROM mysql.audit_log_filter WHERE name = ?`. -/
def countFilter (st : Store) (name : String) : Nat :=
  (st.filters.filter (fun r => r.name == name)).length

/-- Honest effect of `audit_log_filter_set_filter(name, text)`. -/
def applySetFilter (st : Store) (name text : String) : Store :=
  { st with filters := st.filters ++ [⟨name, st.nextId, text⟩], nextId := st.nextId + 1 }

/-- Honest effect of `audit_log_filter_remove_filter(name)`: drops the
filter row and, as MySQL does, every user assignment bound to it. -/
def applyRemoveFilter (st : Store) (name : String) : Store :=
  { st with filters := st.filters.filter (fun r => r.name != name),
            users := st.users.filter (fun u => u.2 != name) }

/-- Split a character list at its first `@`. -/
def splitAtSign : List Char → Option (List Char × List Char)
  | [] => none
  | c :: cs =>
    if c = '@' then some ([], cs)
    else
      match splitAtSign cs with
      | some (u, h) => some (c :: u, h)
      | none => none

/-- MySQL's reading of a `user@host` spec (the inverse of the formatting
Update uses; `%` selects the default-account row). -/
def parseSpec (s : String) : Assignment :=
  if s = "%" then ⟨"%", "%"⟩
  else
    match splitAtSign s.data with
    | some (u, h) => ⟨String.mk u, String.mk h⟩
    | none => ⟨s, ""⟩

/-- Honest effect of `audit_log_filter_set_user(spec, filterName)`: the
user's single assignment row is replaced. -/
def applySetUser (st : Store) (spec filterName : String) : Store :=
  { st with users := st.users.filter (fun u => u.1 != parseSpec spec)
      ++ [(parseSpec spec, filterName)] }

/-- A one-row read; a missing row is `sql.ErrNoRows`. -/
def doReadFilter (st : Store) (e : Eff) (name : String) : Except String String :=
  match e with
  | .fail m => .error m
  | _ =>
    match lookupFilter st name with
    | some r => .ok r.definition
    | none => .error "sql: no rows in result set"

/-- The `filter_id` read-back. -/
def doReadFilterId (st : Store) (e : Eff) (name : String) : Except String Int :=
  match e with
  | .fail m => .error m
  | _ =>
    match lookupFilter st name with
    | some r => .ok r.filterId
    | none => .error "sql: no rows in result set"

/-- The existence-count query. -/
def doCount (st : Store) (e : Eff) (name : String) : Except String Nat :=
  match e with
  | .fail m => .error m
  | _ => .ok (countFilter st name)

/-- The assignment rows bound to a filter, as the snapshot query returns
them. -/
def assignmentsOf (st : Store) (name : String) : List Assignment :=
  (st.users.filter (fun u => u.2 == name)).map (fun u => u.1)

/-- The user-assignment snapshot query. -/
def doReadAssignments (st : Store) (e : Eff) (name : String) :
    Except String (List Assignment) :=
  match e with
  | .fail m => .error m
  | _ => .ok (assignmentsOf st name)

/-- A mutating UDF call: the operation happens exactly when the returned
result string is `"OK"`. -/
def doMutate (st : Store) (e : Eff) (apply : Store → Store) :
    Except String String × Store :=
  match e with
  | .fail m => (.error m, st)
  | .res s => if s = "OK" then (.ok "OK", apply st) else (.ok s, st)
  | .ok => (.ok "OK", apply st)

/-- The user spec Update formats for a snapshotted assignment. -/
def specOf (u : Assignment) : String :=
  if u.username = "%" then "%" else u.username ++ "@" ++ u.userhost

/-- The `for _, user := range assignedUsers` restoration loop of Update:
best-effort, each failure a warning, never aborting. -/
def restoreLoop (st : Store) (sched : List Eff) (users : List Assignment)
    (filterName : String) (tr : List Call) (dg : List Diag) :
    Store × List Eff × List Call × List Diag :=
  match users with
  | [] => (st, sched, tr, dg)
  | u :: rest =>
    let spec := specOf u
    let e := (takeEff sched).1
    let sched2 := (takeEff sched).2
    let mr := doMutate st e (fun s => applySetUser s spec filterName)
    let st2 := mr.2
    let tr2 := tr ++ [Call.setUser spec filterName]
    match mr.1 with
    | .error msg =>
      restoreLoop st2 sched2 rest filterName tr2 (dg ++
        [.warning "Failed to Restore User Assignment"
          ("Could not restore user assignment for '" ++ spec ++ "': " ++ msg ++
            ". You may need to manually reassign this user to the filter.")])
    | .ok assignResult =>
      if assignResult = "OK" then restoreLoop st2 sched2 rest filterName tr2 dg
      else
        restoreLoop st2 sched2 rest filterName tr2 (dg ++
          [.warning "User Assignment Restoration Failed"
            ("MySQL returned an error when restoring user assignment for '" ++ spec ++
              "': " ++ assignResult ++
              ". You may need to manually reassign this user to the filter.")])

/-- Update after validation, normalization and the recreation warning:
snapshot the old definition and assignments, remove, recreate (rolling back
to the old definition on failure), restore assignments, read the id back. -/
def updateCore (st0 : Store) (sched : List Eff) (filterName newDefinition : String)
    (dg0 : List Diag) : RunOut :=
  let e1 := (takeEff sched).1
  let sched1 := (takeEff sched).2
  let tr1 := [Call.readFilter filterName]
  match doReadFilter st0 e1 filterName with
  | .error msg =>
    { diags := dg0 ++ [.error "Database Error"
        ("Failed to read existing filter definition: " ++ msg)],
      trace := tr1, store := st0, state := none }
  | .ok oldDefinition =>
    let e2 := (takeEff sched1).1
    let sched2 := (takeEff sched1).2
    let tr2 := tr1 ++ [Call.readAssignments filterName]
    match doReadAssignments st0 e2 filterName with
    | .error msg =>
      { diags := dg0 ++ [.error "Database Error"
          ("Failed to check user assignments: " ++ msg)],
        trace := tr2, store := st0, state := none }
    | .ok assignedUsers =>
      let e3 := (takeEff sched2).1
      let sched3 := (takeEff sched2).2
      let m3 := doMutate st0 e3 (fun s => applyRemoveFilter s filterName)
      let st1 := m3.2
      let tr3 := tr2 ++ [Call.removeFilter filterName]
      match m3.1 with
      | .error msg =>
        { diags := dg0 ++ [.error "Failed to Remove Existing Filter"
            ("Could not remove existing audit log filter during update: " ++ msg)],
          trace := tr3, store := st1, state := none }
      | .ok removeResult =>
        if removeResult = "OK" then
          let e4 := (takeEff sched3).1
          let sched4 := (takeEff sched3).2
          let m4 := doMutate st1 e4
            (fun s => applySetFilter s filterName newDefinition)
          let st2 := m4.2
          let tr4 := tr3 ++ [Call.setFilter filterName newDefinition]
          match m4.1 with
          | .error msg =>
            let e5 := (takeEff sched4).1
            let m5 := doMutate st2 e5
              (fun s => applySetFilter s filterName oldDefinition)
            let st3 := m5.2
            let tr5 := tr4 ++ [Call.setFilter filterName oldDefinition]
            let rollbackFailed :=
              match m5.1 with
              | .error _ => true
              | .ok rollbackResult => rollbackResult != "OK"
            if rollbackFailed then
              { diags := dg0 ++ [.error "Failed to Recreate Filter"
                  ("Could not recreate audit log filter with new definition: " ++ msg ++
                    ". Rollback attempt also failed; manual restoration may be required.")],
                trace := tr5, store := st3, state := none }
            else
              { diags := dg0 ++ [.error "Failed to Recreate Filter"
                  ("Could not recreate audit log filter with new definition: " ++ msg ++
                    ". The original filter definition was restored.")],
                trace := tr5, store := st3, state := none }
          | .ok createResult =>
            if createResult = "OK" then
              let rl :=
                if assignedUsers.length > 0 then
                  restoreLoop st2 sched4 assignedUsers filterName tr4 (dg0 ++
                    [.warning "Restoring User Assignments"
                      ("Restoring " ++ toString assignedUsers.length ++
                        " user assignments that were affected by the filter update. These users may experience a brief interruption in audit logging.")])
                else (st2, sched4, tr4, dg0)
              let st4 := rl.1
              let sched5 := rl.2.1
              let tr5 := rl.2.2.1
              let dg1 := rl.2.2.2
              let e6 := (takeEff sched5).1
              let tr6 := tr5 ++ [Call.readFilterId filterName]
              match doReadFilterId st4 e6 filterName with
              | .error msg =>
                { diags := dg1 ++ [.error "Database Error"
                    ("Failed to retrieve updated filter: " ++ msg)],
                  trace := tr6, store := st4, state := none }
              | .ok fid =>
                { diags := dg1, trace := tr6, store := st4,
                  state := some ⟨filterName, filterName, newDefinition, fid⟩ }
            else
              let e5 := (takeEff sched4).1
              let m5 := doMutate st2 e5
                (fun s => applySetFilter s filterName oldDefinition)
              let st3 := m5.2
              let tr5 := tr4 ++ [Call.setFilter filterName oldDefinition]
              let rollbackFailed :=
                match m5.1 with
                | .error _ => true
                | .ok rollbackResult => rollbackResult != "OK"
              if rollbackFailed then
                { diags := dg0 ++ [.error "Filter Recreation Failed"
                    ("MySQL returned an error when recreating filter: " ++ createResult ++
                      ". Rollback attempt also failed; manual restoration may be required.")],
                  trace := tr5, store := st3, state := none }
              else
                { diags := dg0 ++ [.error "Filter Recreation Failed"
                    ("MySQL returned an error when recreating filter: " ++ createResult ++
                      ". The original filter definition was restored.")],
                  trace := tr5, store := st3, state := none }
        else
          { diags := dg0 ++ [.error "Filter Removal Failed"
              ("MySQL returned an error when removing existing filter: " ++ removeResult)],
            trace := tr3, store := st1, state := none }

/-- The advisory warning Update always adds once its input is validated and
normalized. -/
def recreateWarning : Diag :=
  .warning "Filter Update Requires Recreation"
    "MySQL audit log filters cannot be updated in-place. The provider will remove the existing filter and recreate it with the new definition. This may temporarily affect active sessions that are using this filter. Sessions may need to reconnect to pick up the new filter rules."

/-- `AuditLogFilterResource.Update`. -/
def Update (st0 : Store) (sched : List Eff) (name rawDefinition : String) : RunOut :=
  match validateAuditLogFilterDefinition rawDefinition with
  | .error e =>
    { diags := [.error "Invalid JSON Definition" (valErrMessage e)],
      trace := [], store := st0, state := none }
  | .ok _ =>
    match normalizeJSON rawDefinition with
    | none =>
      { diags := [.error "Invalid JSON Definition"
          "The filter definition must be valid JSON: "],
        trace := [], store := st0, state := none }
    | some normalizedDefinition =>
      updateCore st0 sched name normalizedDefinition [recreateWarning]

/-- `AuditLogFilterResource.Create`. -/
def Create (st0 : Store) (sched : List Eff) (name rawDefinition : String) : RunOut :=
  match validateAuditLogFilterDefinition rawDefinition with
  | .error e =>
    { diags := [.error "Invalid JSON Definition" (valErrMessage e)],
      trace := [], store := st0, state := none }
  | .ok _ =>
    match normalizeJSON rawDefinition with
    | none =>
      { diags := [.error "Invalid JSON Definition"
          "The filter definition must be valid JSON: "],
        trace := [], store := st0, state := none }
    | some normalizedDefinition =>
      let e1 := (takeEff sched).1
      let sched1 := (takeEff sched).2
      let tr1 := [Call.countFilters name]
      match doCount st0 e1 name with
      | .error msg =>
        { diags := [.error "Database Error" ("Failed to check existing filter: " ++ msg)],
          trace := tr1, store := st0, state := none }
      | .ok existingCount =>
        if existingCount > 0 then
          { diags := [.error "Filter Already Exists"
              ("A filter with name '" ++ name ++ "' already exists")],
            trace := tr1, store := st0, state := none }
        else
          let e2 := (takeEff sched1).1
          let sched2 := (takeEff sched1).2
          let m2 := doMutate st0 e2
            (fun s => applySetFilter s name normalizedDefinition)
          let st1 := m2.2
          let tr2 := tr1 ++ [Call.setFilter name normalizedDefinition]
          match m2.1 with
          | .error msg =>
            { diags := [.error "Failed to Create Filter"
                ("Could not create audit log filter: " ++ msg)],
              trace := tr2, store := st1, state := none }
          | .ok result =>
            if result = "OK" then
              let e3 := (takeEff sched2).1
              let tr3 := tr2 ++ [Call.readFilterId name]
              match doReadFilterId st1 e3 name with
              | .error msg =>
                { diags := [.error "Database Error"
                    ("Failed to retrieve filter ID: " ++ msg)],
                  trace := tr3, store := st1, state := none }
              | .ok fid =>
                { diags := [], trace := tr3, store := st1,
                  state := some ⟨name, name, normalizedDefinition, fid⟩ }
            else
              { diags := [.error "Filter Creation Failed"
                  ("MySQL returned an error: " ++ result)],
                trace := tr2, store := st1, state := none }

/-! ## Orchestration helpers and lemmas -/

/-- The warning the restoration loop records for one missed assignment,
by the call's outcome (`.ok` never produces one). -/
def restoreWarn (spec : String) : Eff → Diag
  | .fail m =>
    .warning "Failed to Restore User Assignment"
      ("Could not restore user assignment for '" ++ spec ++ "': " ++ m ++
        ". You may need to manually reassign this user to the filter.")
  | .res s =>
    .warning "User Assignment Restoration Failed"
      ("MySQL returned an error when restoring user assignment for '" ++ spec ++
        "': " ++ s ++ ". You may need to manually reassign this user to the filter.")
  | .ok => .warning "" ""

/-- The error Update reports when the recreate step misses: the title and
text depend on how the recreate missed, the suffix on the rollback
outcome. -/
def recreateFailureDiag : Eff → Eff → Diag
  | .fail m, rb =>
    .error "Failed to Recreate Filter"
      ("Could not recreate audit log filter with new definition: " ++ m ++
        (if rb.notOK then ". Rollback attempt also failed; manual restoration may be required."
         else ". The original filter definition was restored."))
  | .res s, rb =>
    .error "Filter Recreation Failed"
      ("MySQL returned an error when recreating filter: " ++ s ++
        (if rb.notOK then ". Rollback attempt also failed; manual restoration may be required."
         else ". The original filter definition was restored."))
  | .ok, _ => .error "" ""

theorem doReadFilter_not_fail {st : Store} {e : Eff} {name : String}
    (h : e.isFail = false) :
    doReadFilter st e name =
      (match lookupFilter st name with
       | some r => .ok r.definition
       | none => .error "sql: no rows in result set") := by
  cases e with
  | ok => rfl
  | res s => rfl
  | fail m => exact Bool.noConfusion h

theorem doReadFilterId_not_fail {st : Store} {e : Eff} {name : String}
    (h : e.isFail = false) :
    doReadFilterId st e name =
      (match lookupFilter st name with
       | some r => .ok r.filterId
       | none => .error "sql: no rows in result set") := by
  cases e with
  | ok => rfl
  | res s => rfl
  | fail m => exact Bool.noConfusion h

theorem doReadAssignments_not_fail {st : Store} {e : Eff} {name : String}
    (h : e.isFail = false) :
    doReadAssignments st e name = .ok (assignmentsOf st name) := by
  cases e with
  | ok => rfl
  | res s => rfl
  | fail m => exact Bool.noConfusion h

theorem doCount_not_fail {st : Store} {e : Eff} {name : String}
    (h : e.isFail = false) :
    doCount st e name = .ok (countFilter st name) := by
  cases e with
  | ok => rfl
  | res s => rfl
  | fail m => exact Bool.noConfusion h

theorem doMutate_hit {st : Store} {e : Eff} {ap : Store → Store}
    (h : e.notOK = false) : doMutate st e ap = (.ok "OK", ap st) := by
  cases e with
  | ok => rfl
  | res s =>
    have hs : s = "OK" := by simpa [Eff.notOK] using h
    subst hs
    rfl
  | fail m => exact Bool.noConfusion h

theorem lookupFilter_applyRemoveFilter (st : Store) (name : String) :
    lookupFilter (applyRemoveFilter st name) name = none := by
  unfold lookupFilter applyRemoveFilter
  simp only [List.find?_eq_none]
  intro r hr
  have := (List.mem_filter.mp hr).2
  simp only [bne_iff_ne, ne_eq] at this
  simpa using this

theorem lookupFilter_applySetFilter {st : Store} {name : String}
    (hnone : lookupFilter st name = none) (text : String) :
    lookupFilter (applySetFilter st name text) name
      = some ⟨name, st.nextId, text⟩ := by
  unfold lookupFilter applySetFilter
  unfold lookupFilter at hnone
  simp only [List.find?_append, hnone, Option.none_orElse]
  simp [List.find?]

/-- The restoration loop only appends to the diagnostics. -/
theorem restoreLoop_diags_mem : ∀ (users : List Assignment) (st : Store)
    (sched : List Eff) (fn : String) (tr : List Call) (dg : List Diag) (d : Diag),
    d ∈ dg → d ∈ (restoreLoop st sched users fn tr dg).2.2.2
  | [], _, _, _, _, _, _, hd => hd
  | u :: rest, st, sched, fn, tr, dg, d, hd => by
    unfold restoreLoop
    try dsimp only
    repeat' split
    all_goals first
      | exact restoreLoop_diags_mem rest _ _ _ _ _ d hd
      | exact restoreLoop_diags_mem rest _ _ _ _ _ d (List.mem_append_left _ hd)

/-- Everything the restoration loop appends is a warning. -/
theorem restoreLoop_diags_warnings : ∀ (users : List Assignment) (st : Store)
    (sched : List Eff) (fn : String) (tr : List Call) (dg : List Diag) (d : Diag),
    d ∈ (restoreLoop st sched users fn tr dg).2.2.2 →
    d ∈ dg ∨ ∃ t b, d = .warning t b
  | [], _, _, _, _, _, _, hd => Or.inl hd
  | u :: rest, st, sched, fn, tr, dg, d, hd => by
    have step : ∀ (st2 : Store) (sched2 : List Eff) (tr2 : List Call) (t b : String),
        d ∈ (restoreLoop st2 sched2 rest fn tr2 (dg ++ [.warning t b])).2.2.2 →
        d ∈ dg ∨ ∃ t2 b2, d = .warning t2 b2 := by
      intro st2 sched2 tr2 t b hmem
      rcases restoreLoop_diags_warnings rest st2 sched2 fn tr2 _ d hmem with hin | hw
      · rcases List.mem_append.mp hin with hin | hin
        · exact Or.inl hin
        · exact Or.inr ⟨t, b, by simpa using hin⟩
      · exact Or.inr hw
    revert hd
    unfold restoreLoop
    try dsimp only
    repeat' split
    all_goals intro hd
    all_goals first
      | exact restoreLoop_diags_warnings rest _ _ _ _ _ d hd
      | exact step _ _ _ _ _ hd

/-- The restoration loop issues exactly one `setUser` call per snapshotted
assignment, in order, whatever the outcomes. -/
theorem restoreLoop_trace : ∀ (users : List Assignment) (st : Store)
    (sched : List Eff) (fn : String) (tr : List Call) (dg : List Diag),
    (restoreLoop st sched users fn tr dg).2.2.1
      = tr ++ users.map (fun u => Call.setUser (specOf u) fn)
  | [], _, _, _, tr, _ => by simp [restoreLoop]
  | u :: rest, st, sched, fn, tr, dg => by
    unfold restoreLoop
    try dsimp only
    repeat' split
    all_goals rw [restoreLoop_trace rest]
    all_goals simp

/-- The restoration loop never touches the filter table. -/
theorem restoreLoop_filters : ∀ (users : List Assignment) (st : Store)
    (sched : List Eff) (fn : String) (tr : List Call) (dg : List Diag),
    (restoreLoop st sched users fn tr dg).1.filters = st.filters
  | [], _, _, _, _, _ => rfl
  | u :: rest, st, sched, fn, tr, dg => by
    have hmut : ∀ e : Eff,
        (doMutate st e (fun s => applySetUser s (specOf u) fn)).2.filters
          = st.filters := by
      intro e
      cases e with
      | ok => rfl
      | fail m => rfl
      | res s =>
        by_cases hs : s = "OK" <;> simp [doMutate, hs, applySetUser]
    unfold restoreLoop
    try dsimp only
    repeat' split
    all_goals rw [restoreLoop_filters rest]
    all_goals exact hmut _

/-- A missed restoration (by schedule position) leaves its warning, naming
the formatted user spec, in the final diagnostics. -/
theorem restoreLoop_missed_warn : ∀ (users : List Assignment) (us tail : List Eff)
    (st : Store) (fn : String) (tr : List Call) (dg : List Diag) (i : Nat)
    (u : Assignment) (e : Eff),
    us.length = users.length → users[i]? = some u → us[i]? = some e →
    e.notOK = true →
    restoreWarn (specOf u) e ∈ (restoreLoop st (us ++ tail) users fn tr dg).2.2.2
  | [], us, tail, st, fn, tr, dg, i, u, e, hlen, hu, he, hnot => by simp at hu
  | u0 :: rest, [], tail, st, fn, tr, dg, i, u, e, hlen, hu, he, hnot => by simp at hlen
  | u0 :: rest, e0 :: us, tail, st, fn, tr, dg, 0, u, e, hlen, hu, he, hnot => by
    have hu0 : u0 = u := by simpa using hu
    have he0 : e0 = e := by simpa using he
    subst hu0
    subst he0
    unfold restoreLoop
    try dsimp only
    cases e0 with
    | ok => exact Bool.noConfusion hnot
    | fail m =>
      refine restoreLoop_diags_mem rest _ _ _ _ _ _
        (List.mem_append_right _ ?_)
      simp [restoreWarn]
    | res s =>
      have hs : ¬(s = "OK") := by simpa [Eff.notOK] using hnot
      simp only [List.cons_append, takeEff, doMutate, if_neg hs]
      refine restoreLoop_diags_mem rest _ _ _ _ _ _
        (List.mem_append_right _ ?_)
      simp [restoreWarn]
  | u0 :: rest, e0 :: us, tail, st, fn, tr, dg, i + 1, u, e, hlen, hu, he, hnot => by
    have hu2 : rest[i]? = some u := by simpa using hu
    have he2 : us[i]? = some e := by simpa using he
    have hlen2 : us.length = rest.length := by simpa using hlen
    unfold restoreLoop
    try dsimp only
    repeat' split
    all_goals exact restoreLoop_missed_warn rest us tail _ fn _ _ i u e hlen2 hu2 he2 hnot

/-- The restoration loop consumes exactly one schedule entry per
assignment. -/
theorem restoreLoop_sched : ∀ (users : List Assignment) (us tail : List Eff)
    (st : Store) (fn : String) (tr : List Call) (dg : List Diag),
    us.length = users.length →
    (restoreLoop st (us ++ tail) users fn tr dg).2.1 = tail
  | [], [], tail, st, fn, tr, dg, _ => rfl
  | [], _ :: _, tail, st, fn, tr, dg, hlen => by simp at hlen
  | _ :: _, [], tail, st, fn, tr, dg, hlen => by simp at hlen
  | u0 :: rest, e0 :: us, tail, st, fn, tr, dg, hlen => by
    have hlen2 : us.length = rest.length := by simpa using hlen
    unfold restoreLoop
    try dsimp only
    repeat' split
    all_goals exact restoreLoop_sched rest us tail _ fn _ _ hlen2

/-- `updateCore` only appends to the diagnostics it is given. -/
theorem updateCore_diags_mem (st : Store) (sched : List Eff) (fn nd : String)
    (dg0 : List Diag) (d : Diag) (hd : d ∈ dg0) :
    d ∈ (updateCore st sched fn nd dg0).diags := by
  unfold updateCore
  try dsimp only
  repeat' split
  all_goals first
    | exact hd
    | exact List.mem_append_left _ hd
    | exact restoreLoop_diags_mem _ _ _ _ _ _ d (List.mem_append_left _ hd)
    | exact List.mem_append_left _
        (restoreLoop_diags_mem _ _ _ _ _ _ d (List.mem_append_left _ hd))

/-- The recreate-failure path of `updateCore`, in full: with the old filter
present, healthy reads and a clean remove, a missed recreate (transport
error or non-OK result) triggers exactly one rollback `set_filter` with the
stored text read at the start, reports the recreate failure with the
rollback outcome appended, writes no state, and loses every user
assignment of the filter whatever the rollback outcome. -/
theorem updateCore_recreate_fail (st : Store) (rest : List Eff) (name nd : String)
    (e1 e2 e4 e5 : Eff) (fr : FilterRec) (dg0 : List Diag)
    (h1 : e1.isFail = false) (h2 : e2.isFail = false) (h4 : e4.notOK = true)
    (hlk : lookupFilter st name = some fr) :
    updateCore st ([e1, e2, .ok, e4, e5] ++ rest) name nd dg0 =
      { diags := dg0 ++ [recreateFailureDiag e4 e5],
        trace := [.readFilter name, .readAssignments name, .removeFilter name,
                  .setFilter name nd, .setFilter name fr.definition],
        store := if e5.notOK then applyRemoveFilter st name
                 else applySetFilter (applyRemoveFilter st name) name fr.definition,
        state := none } := by
  unfold updateCore
  simp only [List.cons_append, takeEff, doReadFilter_not_fail h1, hlk,
    doReadAssignments_not_fail h2, doMutate]
  cases e4 with
  | ok => exact Bool.noConfusion h4
  | fail m4 =>
    cases e5 with
    | ok => simp [doMutate, recreateFailureDiag, Eff.notOK]
    | fail m5 => simp [doMutate, recreateFailureDiag, Eff.notOK]
    | res s5 =>
      by_cases hs5 : s5 = "OK"
      · subst hs5
        simp [doMutate, recreateFailureDiag, Eff.notOK]
      · simp [doMutate, recreateFailureDiag, Eff.notOK, hs5]
  | res s4 =>
    have hs4 : ¬(s4 = "OK") := by simpa [Eff.notOK] using h4
    cases e5 with
    | ok => simp [doMutate, recreateFailureDiag, Eff.notOK, hs4]
    | fail m5 => simp [doMutate, recreateFailureDiag, Eff.notOK, hs4]
    | res s5 =>
      by_cases hs5 : s5 = "OK"
      · subst hs5
        simp [doMutate, recreateFailureDiag, Eff.notOK, hs4]
      · simp [doMutate, recreateFailureDiag, Eff.notOK, hs4, hs5]

/-- The fully successful Update path: healthy reads, clean remove and
recreate.  Every snapshotted assignment gets exactly one restoration
attempt, in order; a missed attempt leaves its warning (naming the user
spec) without aborting the rest; nothing but warnings is added; and with a
healthy final read the new state is written. -/
theorem updateCore_success (st : Store) (us tail : List Eff) (name nd : String)
    (e1 e2 e6 : Eff) (fr : FilterRec) (dg0 : List Diag)
    (h1 : e1.isFail = false) (h2 : e2.isFail = false) (h6 : e6.isFail = false)
    (hlk : lookupFilter st name = some fr)
    (hlen : us.length = (assignmentsOf st name).length) :
    (updateCore st ([e1, e2, .ok, .ok] ++ us ++ e6 :: tail) name nd dg0).trace
      = [.readFilter name, .readAssignments name, .removeFilter name,
         .setFilter name nd] ++
        (assignmentsOf st name).map (fun u => Call.setUser (specOf u) name) ++
        [.readFilterId name] ∧
    (∀ (i : Nat) (u : Assignment) (e : Eff),
      (assignmentsOf st name)[i]? = some u → us[i]? = some e →
      e.notOK = true →
      restoreWarn (specOf u) e
        ∈ (updateCore st ([e1, e2, .ok, .ok] ++ us ++ e6 :: tail) name nd dg0).diags) ∧
    (updateCore st ([e1, e2, .ok, .ok] ++ us ++ e6 :: tail) name nd dg0).state
      = some ⟨name, name, nd, st.nextId⟩ ∧
    (∀ d ∈ (updateCore st ([e1, e2, .ok, .ok] ++ us ++ e6 :: tail) name nd dg0).diags,
      d ∈ dg0 ∨ ∃ t b, d = .warning t b) := by
  have hnone := lookupFilter_applyRemoveFilter st name
  have hset := lookupFilter_applySetFilter hnone nd
  have hlkup : ∀ (sched2 : List Eff) (tr : List Call) (dg : List Diag),
      lookupFilter (restoreLoop (applySetFilter (applyRemoveFilter st name) name nd)
        sched2 (assignmentsOf st name) name tr dg).1 name
        = some ⟨name, (applyRemoveFilter st name).nextId, nd⟩ := by
    intro sched2 tr dg
    unfold lookupFilter
    rw [restoreLoop_filters]
    unfold lookupFilter at hset
    exact hset
  unfold updateCore
  simp only [List.cons_append, List.nil_append, takeEff, doReadFilter_not_fail h1, hlk,
    doReadAssignments_not_fail h2, doMutate, if_true]
  by_cases hpos : (assignmentsOf st name).length > 0
  · rw [if_pos hpos]
    rw [restoreLoop_sched (assignmentsOf st name) us (e6 :: tail) _ _ _ _ hlen]
    simp only [takeEff, doReadFilterId_not_fail h6, hlkup]
    refine ⟨?_, ?_, ?_, ?_⟩
    · rw [restoreLoop_trace]
      simp
    · intro i u e hu he hnot
      exact restoreLoop_missed_warn (assignmentsOf st name) us (e6 :: tail)
        _ name _ _ i u e hlen hu he hnot
    · rfl
    · intro d hdm
      rcases restoreLoop_diags_warnings _ _ _ _ _ _ d hdm with hin | hw
      · rcases List.mem_append.mp hin with hin2 | hin2
        · exact Or.inl hin2
        · exact Or.inr ⟨_, _, List.mem_singleton.mp hin2⟩
      · exact Or.inr hw
  · rw [if_neg hpos]
    have hA : assignmentsOf st name = [] := by
      cases hA2 : assignmentsOf st name with
      | nil => rfl
      | cons a l => rw [hA2] at hpos; simp at hpos
    have hus : us = [] := by
      rw [hA] at hlen
      exact List.length_eq_zero.mp (by simpa using hlen)
    subst hus
    simp only [List.nil_append, takeEff, doReadFilterId_not_fail h6, hset]
    refine ⟨?_, ?_, ?_, ?_⟩
    · rw [hA]
      simp
    · intro i u e hu he hnot
      rw [hA] at hu
      simp at hu
    · rfl
    · intro d hdm
      exact Or.inl hdm

/-- Validation success implies normalization success (shared with the
orchestration proofs). -/
theorem validate_ok_normalize {text : String}
    (h : validateAuditLogFilterDefinition text = .ok ()) :
    ∃ nd, normalizeJSON text = some nd := by
  unfold validateAuditLogFilterDefinition at h
  unfold normalizeJSON
  cases hp : parseDoc text with
  | none =>
    rw [hp] at h
    try simp only [] at h
    cases h
  | some v => exact ⟨renderJson v, rfl⟩

/-- A validated, normalized Update is `updateCore` seeded with the
recreation advisory. -/
theorem Update_eq_core {st : Store} {sched : List Eff} {name text norm : String}
    (hv : validateAuditLogFilterDefinition text = .ok ())
    (hn : normalizeJSON text = some norm) :
    Update st sched name text = updateCore st sched name norm [recreateWarning] := by
  unfold Update
  rw [hv]
  try simp only []
  rw [hn]

/-! ## Claims C1, C2, C4, C5, C6, C8 -/

/-- **C4.** A validation failure (malformed JSON, non-object root, missing
or non-object `filter` key, or a condition-walk error) makes both Create
and Update report the validation error and return before issuing any store
call: empty call trace, unchanged store, no state written. -/
theorem c4_validation_error_no_store_calls (st : Store) (sched : List Eff)
    (name text : String) (e : ValErr)
    (h : validateAuditLogFilterDefinition text = .error e) :
    Create st sched name text =
      { diags := [.error "Invalid JSON Definition" (valErrMessage e)],
        trace := [], store := st, state := none } ∧
    Update st sched name text =
      { diags := [.error "Invalid JSON Definition" (valErrMessage e)],
        trace := [], store := st, state := none } := by
  unfold Create Update
  rw [h]
  exact ⟨rfl, rfl⟩

/-- Closed instance of C4 at a malformed definition. -/
theorem c4_witness :
    validateAuditLogFilterDefinition "not json" = .error .malformedJSON ∧
    (Create ⟨[], [], 1⟩ [] "f" "not json").trace = [] ∧
    (Update ⟨[], [], 1⟩ [] "f" "not json").trace = [] :=
  have h : validateAuditLogFilterDefinition "not json" = .error .malformedJSON := rfl
  ⟨h,
    by rw [(c4_validation_error_no_store_calls ⟨[], [], 1⟩ [] "f" "not json"
      .malformedJSON h).1],
    by rw [(c4_validation_error_no_store_calls ⟨[], [], 1⟩ [] "f" "not json"
      .malformedJSON h).2]⟩

/-- **C5, counterexample.** An Update whose definition fails validation
returns before the advisory is added: no "Filter Update Requires
Recreation" warning is surfaced, refuting "every input and every outcome
(including rejection by validation)". -/
theorem c5_counterexample :
    recreateWarning ∉ (Update ⟨[], [], 1⟩ [] "f" "not json").diags := by decide

/-- **C5, amended.** Every Update invocation whose definition passes
validation surfaces the "Filter Update Requires Recreation" advisory,
whatever the store, the fault schedule and the outcome; an invocation
rejected by validation returns before the advisory is added. -/
theorem c5_update_warning_after_validation (st : Store) (sched : List Eff)
    (name text : String)
    (hv : validateAuditLogFilterDefinition text = .ok ()) :
    recreateWarning ∈ (Update st sched name text).diags := by
  obtain ⟨nd, hn⟩ := validate_ok_normalize hv
  rw [Update_eq_core hv hn]
  exact updateCore_diags_mem st sched name nd [recreateWarning] recreateWarning
    (List.mem_singleton_self _)

/-- Closed instance of the amended C5, on a failing schedule. -/
theorem c5_witness :
    validateAuditLogFilterDefinition "\x7b\"filter\":\x7b\x7d\x7d" = .ok () ∧
    recreateWarning ∈
      (Update ⟨[], [], 1⟩ [.fail "down"] "f" "\x7b\"filter\":\x7b\x7d\x7d").diags :=
  have h : validateAuditLogFilterDefinition "\x7b\"filter\":\x7b\x7d\x7d" = .ok () := rfl
  ⟨h, c5_update_warning_after_validation ⟨[], [], 1⟩ [.fail "down"] "f" _ h⟩

/-- **C2.** When Update's recreate step misses (transport error or non-OK
result), exactly one rollback `set_filter` carrying the stored text read at
the start of the call — verbatim — is attempted: the trace holds exactly
one recreate and one rollback call and nothing after them; the reported
error names the recreate failure with the rollback outcome appended
(manual restoration demanded exactly when the rollback also missed); no
state is written; and when the rollback lands, the store again holds the
old definition under the filter's name. -/
theorem c2_rollback_exactly_once (st : Store) (rest : List Eff)
    (name text norm : String) (e1 e2 e4 e5 : Eff) (fr : FilterRec)
    (hv : validateAuditLogFilterDefinition text = .ok ())
    (hn : normalizeJSON text = some norm)
    (h1 : e1.isFail = false) (h2 : e2.isFail = false) (h4 : e4.notOK = true)
    (hlk : lookupFilter st name = some fr) :
    (Update st ([e1, e2, .ok, e4, e5] ++ rest) name text).trace =
      [.readFilter name, .readAssignments name, .removeFilter name,
       .setFilter name norm, .setFilter name fr.definition] ∧
    (Update st ([e1, e2, .ok, e4, e5] ++ rest) name text).diags =
      [recreateWarning, recreateFailureDiag e4 e5] ∧
    (Update st ([e1, e2, .ok, e4, e5] ++ rest) name text).state = none ∧
    (e5.notOK = false →
      lookupFilter (Update st ([e1, e2, .ok, e4, e5] ++ rest) name text).store name
        = some ⟨name, (applyRemoveFilter st name).nextId, fr.definition⟩) := by
  rw [Update_eq_core hv hn,
    updateCore_recreate_fail st rest name norm e1 e2 e4 e5 fr [recreateWarning] h1 h2 h4 hlk]
  refine ⟨rfl, rfl, rfl, ?_⟩
  intro h5
  rw [show (if e5.notOK then applyRemoveFilter st name
      else applySetFilter (applyRemoveFilter st name) name fr.definition)
      = applySetFilter (applyRemoveFilter st name) name fr.definition from by
    rw [h5]; simp]
  exact lookupFilter_applySetFilter (lookupFilter_applyRemoveFilter st name) fr.definition

/-- Closed instance of C2: recreate hits a transport error, the rollback
lands, the old text is back byte for byte. -/
theorem c2_witness :
    (Update ⟨[⟨"f", 1, "OLD"⟩], [], 5⟩ [.ok, .ok, .ok, .fail "boom", .ok] "f"
        "\x7b\"filter\":\x7b\x7d\x7d").trace =
      [.readFilter "f", .readAssignments "f", .removeFilter "f",
       .setFilter "f" "\x7b\"filter\":\x7b\x7d\x7d", .setFilter "f" "OLD"] ∧
    lookupFilter (Update ⟨[⟨"f", 1, "OLD"⟩], [], 5⟩ [.ok, .ok, .ok, .fail "boom", .ok]
        "f" "\x7b\"filter\":\x7b\x7d\x7d").store "f" = some ⟨"f", 5, "OLD"⟩ :=
  have H := c2_rollback_exactly_once ⟨[⟨"f", 1, "OLD"⟩], [], 5⟩ [] "f"
    "\x7b\"filter\":\x7b\x7d\x7d" "\x7b\"filter\":\x7b\x7d\x7d" .ok .ok (.fail "boom") .ok
    ⟨"f", 1, "OLD"⟩ rfl rfl rfl rfl rfl rfl
  ⟨H.1, H.2.2.2 rfl⟩

/-- **C1, counterexample.** An Update of a filter with one assigned user in
which the recreate misses but the rollback lands: the old definition is
back and the rollback succeeded — yet the snapshotted assignment is gone
from the store, no restoration was attempted, and no diagnostic flags the
loss (the diagnostics are exactly the recreation advisory and the recreate
error reporting a successful rollback).  This refutes "lost without being
flagged only if the rollback itself failed". -/
theorem c1_counterexample :
    (Update ⟨[⟨"f", 1, "OLD"⟩], [(⟨"alice", "%"⟩, "f")], 2⟩
        [.ok, .ok, .ok, .fail "boom", .ok] "f" "\x7b\"filter\":\x7b\x7d\x7d").diags =
      [recreateWarning,
        .error "Failed to Recreate Filter"
          "Could not recreate audit log filter with new definition: boom. The original filter definition was restored."] ∧
    (Update ⟨[⟨"f", 1, "OLD"⟩], [(⟨"alice", "%"⟩, "f")], 2⟩
        [.ok, .ok, .ok, .fail "boom", .ok] "f" "\x7b\"filter\":\x7b\x7d\x7d").store.filters
      = [⟨"f", 2, "OLD"⟩] ∧
    (Update ⟨[⟨"f", 1, "OLD"⟩], [(⟨"alice", "%"⟩, "f")], 2⟩
        [.ok, .ok, .ok, .fail "boom", .ok] "f" "\x7b\"filter\":\x7b\x7d\x7d").store.users
      = [] ∧
    (∀ spec fn2, Call.setUser spec fn2 ∉
      (Update ⟨[⟨"f", 1, "OLD"⟩], [(⟨"alice", "%"⟩, "f")], 2⟩
        [.ok, .ok, .ok, .fail "boom", .ok] "f" "\x7b\"filter\":\x7b\x7d\x7d").trace) := by
  refine ⟨rfl, rfl, rfl, ?_⟩
  intro spec fn2
  show Call.setUser spec fn2 ∉
    [Call.readFilter "f", Call.readAssignments "f", Call.removeFilter "f",
     Call.setFilter "f" "\x7b\"filter\":\x7b\x7d\x7d", Call.setFilter "f" "OLD"]
  simp

/-- **C1, amended.** After any Update whose recreate step misses (healthy
snapshot reads, clean remove), the store ends with the rolled-back old
definition when the rollback landed, or no row under the name when it also
missed — and in *both* cases every user assignment of the filter is lost:
none is restored or attempted (no `set_user` call is issued), and the only
diagnostics are the recreation advisory and the recreate error, so the loss
goes unflagged even when the rollback succeeded.  (The successful-recreate
arm of the original claim — every assignment attempted, misses flagged —
is the subject of C6.) -/
theorem c1_rollback_loses_assignments (st : Store) (rest : List Eff)
    (name text norm : String) (e1 e2 e4 e5 : Eff) (fr : FilterRec)
    (hv : validateAuditLogFilterDefinition text = .ok ())
    (hn : normalizeJSON text = some norm)
    (h1 : e1.isFail = false) (h2 : e2.isFail = false) (h4 : e4.notOK = true)
    (hlk : lookupFilter st name = some fr) :
    (Update st ([e1, e2, .ok, e4, e5] ++ rest) name text).store.users
      = st.users.filter (fun u => u.2 != name) ∧
    (∀ spec fn2, Call.setUser spec fn2 ∉
      (Update st ([e1, e2, .ok, e4, e5] ++ rest) name text).trace) ∧
    (Update st ([e1, e2, .ok, e4, e5] ++ rest) name text).diags
      = [recreateWarning, recreateFailureDiag e4 e5] := by
  rw [Update_eq_core hv hn,
    updateCore_recreate_fail st rest name norm e1 e2 e4 e5 fr [recreateWarning] h1 h2 h4 hlk]
  refine ⟨?_, ?_, rfl⟩
  · by_cases h5 : e5.notOK = true
    · rw [if_pos h5]
      rfl
    · rw [if_neg h5]
      rfl
  · intro spec fn2
    simp

/-- Closed instance of the amended C1: two snapshotted assignments, a
successful rollback, and both assignments lost without a `set_user`
attempt. -/
theorem c1_witness :
    (Update ⟨[⟨"f", 1, "OLD"⟩], [(⟨"alice", "%"⟩, "f"), (⟨"bob", "host"⟩, "f")], 2⟩
        [.ok, .ok, .ok, .res "DUPLICATE", .ok] "f" "\x7b\"filter\":\x7b\x7d\x7d").store.users
      = [] ∧
    Call.setUser "alice" "f" ∉
      (Update ⟨[⟨"f", 1, "OLD"⟩], [(⟨"alice", "%"⟩, "f"), (⟨"bob", "host"⟩, "f")], 2⟩
        [.ok, .ok, .ok, .res "DUPLICATE", .ok] "f" "\x7b\"filter\":\x7b\x7d\x7d").trace :=
  have H := c1_rollback_loses_assignments
    ⟨[⟨"f", 1, "OLD"⟩], [(⟨"alice", "%"⟩, "f"), (⟨"bob", "host"⟩, "f")], 2⟩ [] "f"
    "\x7b\"filter\":\x7b\x7d\x7d" "\x7b\"filter\":\x7b\x7d\x7d" .ok .ok (.res "DUPLICATE") .ok
    ⟨"f", 1, "OLD"⟩ rfl rfl rfl rfl rfl rfl
  ⟨H.1, H.2.1 "alice" "f"⟩

/-- **C6.** On the successful Update path, restoration is best-effort:
every snapshotted assignment gets exactly one `set_user` call, in order; a
restoration that misses (transport error or non-OK result) leaves a
warning whose text names the formatted `(username,userhost)` user spec and
does not abort the remaining restorations; nothing but warnings joins the
advisory; and with a healthy final read the Update completes, writing
state with the canonical definition and the read-back id. -/
theorem c6_restoration_best_effort (st : Store) (us tail : List Eff)
    (name text norm : String) (e1 e2 e6 : Eff) (fr : FilterRec)
    (hv : validateAuditLogFilterDefinition text = .ok ())
    (hn : normalizeJSON text = some norm)
    (h1 : e1.isFail = false) (h2 : e2.isFail = false) (h6 : e6.isFail = false)
    (hlk : lookupFilter st name = some fr)
    (hlen : us.length = (assignmentsOf st name).length) :
    (Update st ([e1, e2, .ok, .ok] ++ us ++ e6 :: tail) name text).trace
      = [.readFilter name, .readAssignments name, .removeFilter name,
         .setFilter name norm] ++
        (assignmentsOf st name).map (fun u => Call.setUser (specOf u) name) ++
        [.readFilterId name] ∧
    (∀ (i : Nat) (u : Assignment) (e : Eff),
      (assignmentsOf st name)[i]? = some u → us[i]? = some e → e.notOK = true →
      restoreWarn (specOf u) e
        ∈ (Update st ([e1, e2, .ok, .ok] ++ us ++ e6 :: tail) name text).diags) ∧
    (Update st ([e1, e2, .ok, .ok] ++ us ++ e6 :: tail) name text).state
      = some ⟨name, name, norm, st.nextId⟩ ∧
    (∀ d ∈ (Update st ([e1, e2, .ok, .ok] ++ us ++ e6 :: tail) name text).diags,
      d = recreateWarning ∨ ∃ t b, d = .warning t b) := by
  rw [Update_eq_core hv hn]
  have H := updateCore_success st us tail name norm e1 e2 e6 fr [recreateWarning]
    h1 h2 h6 hlk hlen
  refine ⟨H.1, H.2.1, H.2.2.1, ?_⟩
  intro d hd
  rcases H.2.2.2 d hd with hin | hw
  · exact Or.inl (List.mem_singleton.mp hin)
  · exact Or.inr hw

/-- Closed instance of C6: three assignments, the second restoration
returns a non-OK result; its warning names `bob@host2`, the other two are
attempted, and the Update completes. -/
theorem c6_witness :
    (Update ⟨[⟨"f", 1, "OLD"⟩],
        [(⟨"alice", "host1"⟩, "f"), (⟨"bob", "host2"⟩, "f"), (⟨"%", "%"⟩, "f")], 9⟩
        [.ok, .ok, .ok, .ok, .ok, .res "ERR", .ok, .ok] "f"
        "\x7b\"filter\":\x7b\x7d\x7d").trace
      = [.readFilter "f", .readAssignments "f", .removeFilter "f",
         .setFilter "f" "\x7b\"filter\":\x7b\x7d\x7d", .setUser "alice@host1" "f",
         .setUser "bob@host2" "f", .setUser "%" "f", .readFilterId "f"] ∧
    restoreWarn "bob@host2" (.res "ERR") ∈
      (Update ⟨[⟨"f", 1, "OLD"⟩],
        [(⟨"alice", "host1"⟩, "f"), (⟨"bob", "host2"⟩, "f"), (⟨"%", "%"⟩, "f")], 9⟩
        [.ok, .ok, .ok, .ok, .ok, .res "ERR", .ok, .ok] "f"
        "\x7b\"filter\":\x7b\x7d\x7d").diags ∧
    (Update ⟨[⟨"f", 1, "OLD"⟩],
        [(⟨"alice", "host1"⟩, "f"), (⟨"bob", "host2"⟩, "f"), (⟨"%", "%"⟩, "f")], 9⟩
        [.ok, .ok, .ok, .ok, .ok, .res "ERR", .ok, .ok] "f"
        "\x7b\"filter\":\x7b\x7d\x7d").state
      = some ⟨"f", "f", "\x7b\"filter\":\x7b\x7d\x7d", 9⟩ :=
  have H := c6_restoration_best_effort
    ⟨[⟨"f", 1, "OLD"⟩],
      [(⟨"alice", "host1"⟩, "f"), (⟨"bob", "host2"⟩, "f"), (⟨"%", "%"⟩, "f")], 9⟩
    [.ok, .res "ERR", .ok] [.ok] "f" "\x7b\"filter\":\x7b\x7d\x7d"
    "\x7b\"filter\":\x7b\x7d\x7d" .ok .ok .ok ⟨"f", 1, "OLD"⟩
    rfl rfl rfl rfl rfl rfl rfl
  ⟨H.1, H.2.1 1 ⟨"bob", "host2"⟩ (.res "ERR") rfl rfl rfl, H.2.2.1⟩

/-- **C8.** Create with a validated definition: when the existence count
finds the name, it fails with "Filter Already Exists" and never calls
`set_filter` (the trace is the count query alone, the store untouched);
otherwise it sends the canonicalized text to `set_filter`, reads back the
server-assigned filter id, and records id = name, the read-back id and the
canonicalized definition. -/
theorem c8_create_existence_and_readback (st : Store) (rest : List Eff)
    (name text norm : String) (e1 e2 e3 : Eff)
    (hv : validateAuditLogFilterDefinition text = .ok ())
    (hn : normalizeJSON text = some norm)
    (h1 : e1.isFail = false) :
    (0 < countFilter st name →
      Create st ([e1, e2, e3] ++ rest) name text =
        { diags := [.error "Filter Already Exists"
            ("A filter with name '" ++ name ++ "' already exists")],
          trace := [.countFilters name], store := st, state := none }) ∧
    (countFilter st name = 0 → e2.notOK = false → e3.isFail = false →
      Create st ([e1, e2, e3] ++ rest) name text =
        { diags := [],
          trace := [.countFilters name, .setFilter name norm, .readFilterId name],
          store := applySetFilter st name norm,
          state := some ⟨name, name, norm, st.nextId⟩ }) := by
  unfold Create
  rw [hv]
  try simp only []
  rw [hn]
  try simp only []
  simp only [List.cons_append, takeEff, doCount_not_fail h1]
  constructor
  · intro hcnt
    rw [if_pos hcnt]
  · intro hcnt h2ok h3
    rw [if_neg (by rw [hcnt]; simp)]
    have hnone : lookupFilter st name = none := by
      unfold lookupFilter
      unfold countFilter at hcnt
      rw [List.find?_eq_none]
      intro x hx hpx
      have hmem : x ∈ st.filters.filter (fun r => r.name == name) :=
        List.mem_filter.mpr ⟨hx, hpx⟩
      rw [List.length_eq_zero.mp hcnt] at hmem
      cases hmem
    simp only [doMutate_hit h2ok, takeEff, doReadFilterId_not_fail h3,
      lookupFilter_applySetFilter hnone norm]
    rfl

/-- Closed instance of C8, both regimes: a taken name is refused without a
create call; a free name is created and read back. -/
theorem c8_witness :
    (Create ⟨[⟨"f", 4, "X"⟩], [], 5⟩ [.ok, .ok, .ok] "f"
        "\x7b\"filter\":\x7b\x7d\x7d").trace = [.countFilters "f"] ∧
    (Create ⟨[], [], 7⟩ [.ok, .ok, .ok] "g" "\x7b\"filter\":\x7b\x7d\x7d").state
      = some ⟨"g", "g", "\x7b\"filter\":\x7b\x7d\x7d", 7⟩ :=
  have HA := (c8_create_existence_and_readback ⟨[⟨"f", 4, "X"⟩], [], 5⟩ [] "f"
    "\x7b\"filter\":\x7b\x7d\x7d" "\x7b\"filter\":\x7b\x7d\x7d" .ok .ok .ok
    rfl rfl rfl).1 (by decide)
  have HB := (c8_create_existence_and_readback ⟨[], [], 7⟩ [] "g"
    "\x7b\"filter\":\x7b\x7d\x7d" "\x7b\"filter\":\x7b\x7d\x7d" .ok .ok .ok
    rfl rfl rfl).2 rfl rfl rfl
  ⟨(congrArg RunOut.trace HA).trans rfl, (congrArg RunOut.state HB).trans rfl⟩

/-! ## Claim C3: exclusivity at visited nodes, and the origin of the
multiple-operators error -/

/-- The walk relation composes: a node visited from a visited node is
visited. -/
theorem Visits_trans {v : Json} {p : String} {w : Json} {q : String}
    {x : Json} {r : String}
    (h1 : Visits v p w q) (h2 : Visits w q x r) : Visits v p x r := by
  induction h2 with
  | refl => exact h1
  | arrElem hsub hget ih => exact Visits.arrElem ih hget
  | objMember hsub hpres hmem ih => exact Visits.objMember ih hpres hmem
  | objAndOr hsub hpres hao hlk hget ih => exact Visits.objAndOr ih hpres hao hlk hget
  | objNot hsub hpres hlk ih => exact Visits.objNot ih hpres hlk

/-- A `conditionWalk` error of the entry point is exactly an error of the
condition walk on the parsed root. -/
theorem validate_err_inv {text : String} {root : Json} {e : CondErr}
    (hp : parseDoc text = some root)
    (h : validateAuditLogFilterDefinition text = .error (.conditionWalk e)) :
    validateTree root = .error e := by
  unfold validateAuditLogFilterDefinition at h
  rw [hp] at h
  cases root with
  | obj rootObject =>
    simp only [] at h
    cases hlk : lookupField rootObject "filter" with
    | none =>
      rw [hlk] at h
      try simp only [] at h
      injection h with h2
      cases h2
    | some fv =>
      rw [hlk] at h
      simp only [] at h
      cases fv with
      | obj fms =>
        simp only [] at h
        cases hv : validateTree (Json.obj rootObject) with
        | error e2 =>
          rw [hv] at h
          try simp only [] at h
          injection h with h2
          injection h2 with h3
          exact h3 ▸ rfl
        | ok u =>
          rw [hv] at h
          try simp only [] at h
          cases h
      | null => simp only [] at h; injection h with h2; cases h2
      | bool b => simp only [] at h; injection h with h2; cases h2
      | num n => simp only [] at h; injection h with h2; cases h2
      | str s => simp only [] at h; injection h with h2; cases h2
      | arr es => simp only [] at h; injection h with h2; cases h2
  | null => simp only [] at h; injection h with h2; cases h2
  | bool b => simp only [] at h; injection h with h2; cases h2
  | num n => simp only [] at h; injection h with h2; cases h2
  | str s => simp only [] at h; injection h with h2; cases h2
  | arr es => simp only [] at h; injection h with h2; cases h2

mutual

/-- A `multipleOperators` error of the condition walk originates at a node
the walk visits: its path is the path of a visited object node whose
operator-key set is exactly the named keys (two or more). -/
theorem treeErrOrigin : ∀ (f : Nat) (v : Json) (p q : String) (ops : List String),
    validateConditionTree f v p = .error (.multipleOperators q ops) →
    ∃ ms, Visits v p (.obj ms) q ∧ presentOps ms = ops ∧ 2 ≤ ops.length
  | 0, v, p, q, ops, h => Except.noConfusion h
  | f + 1, v, p, q, ops, h => by
    match v, h with
    | .null, h => exact Except.noConfusion h
    | .bool _, h => exact Except.noConfusion h
    | .num _, h => exact Except.noConfusion h
    | .str _, h => exact Except.noConfusion h
    | .arr items, h =>
      have h2 : validateTreeItems f items p 0 = .error (.multipleOperators q ops) := h
      obtain ⟨j, w, hget, ms, vis, hpres, hlen⟩ := itemsErrOrigin f items p 0 q ops h2
      refine ⟨ms, Visits_trans (Visits.arrElem (Visits.refl (.arr items) p) hget) ?_,
        hpres, hlen⟩
      rw [show (0 : Nat) + j = j from by omega] at vis
      exact vis
    | .obj fields, h =>
      have h2 : validateConditionObject f fields p = .error (.multipleOperators q ops) := h
      exact objectErrOrigin f fields p q ops h2

/-- `treeErrOrigin`, through the array walk: the error stems from some
element. -/
theorem itemsErrOrigin : ∀ (f : Nat) (l : List Json) (p : String) (i : Nat)
    (q : String) (ops : List String),
    validateTreeItems f l p i = .error (.multipleOperators q ops) →
    ∃ (j : Nat) (w : Json), l[j]? = some w ∧
      ∃ ms, Visits w (p ++ "[" ++ toString (i + j) ++ "]") (.obj ms) q ∧
        presentOps ms = ops ∧ 2 ≤ ops.length
  | 0, l, p, i, q, ops, h => Except.noConfusion h
  | f + 1, [], p, i, q, ops, h => Except.noConfusion h
  | f + 1, v :: vs, p, i, q, ops, h => by
    simp only [validateTreeItems] at h
    cases htv : validateConditionTree f v (p ++ "[" ++ toString i ++ "]") with
    | error e =>
      rw [htv] at h
      try simp only [] at h
      injection h with h2
      subst h2
      obtain ⟨ms, vis, hpres, hlen⟩ := treeErrOrigin f v _ q ops htv
      exact ⟨0, v, by simp, ms, vis, hpres, hlen⟩
    | ok u =>
      rw [htv] at h
      simp only [] at h
      obtain ⟨j, w, hget, ms, vis, hpres, hlen⟩ := itemsErrOrigin f vs p (i + 1) q ops h
      refine ⟨j + 1, w, by simpa using hget, ms, ?_, hpres, hlen⟩
      rw [show i + (j + 1) = i + 1 + j from by omega]
      exact vis

/-- `treeErrOrigin`, through the `and`/`or` operand walk. -/
theorem operandErrOrigin : ∀ (f : Nat) (l : List Json) (p op : String) (i : Nat)
    (q : String) (ops : List String),
    validateOperandArray f l p op i = .error (.multipleOperators q ops) →
    ∃ (j : Nat) (fields : List (String × Json)), l[j]? = some (.obj fields) ∧
      ∃ ms, Visits (.obj fields) (p ++ "." ++ op ++ "[" ++ toString (i + j) ++ "]")
          (.obj ms) q ∧ presentOps ms = ops ∧ 2 ≤ ops.length
  | 0, l, p, op, i, q, ops, h => Except.noConfusion h
  | f + 1, [], p, op, i, q, ops, h => Except.noConfusion h
  | f + 1, v :: vs, p, op, i, q, ops, h => by
    simp only [validateOperandArray] at h
    match v, h with
    | .null, h => simp only [] at h; injection h with h2; cases h2
    | .bool _, h => simp only [] at h; injection h with h2; cases h2
    | .num _, h => simp only [] at h; injection h with h2; cases h2
    | .str _, h => simp only [] at h; injection h with h2; cases h2
    | .arr _, h => simp only [] at h; injection h with h2; cases h2
    | .obj fields, h =>
      simp only [] at h
      cases hob : validateConditionObject f fields
          (p ++ "." ++ op ++ "[" ++ toString i ++ "]") with
      | error e =>
        rw [hob] at h
        try simp only [] at h
        injection h with h2
        subst h2
        obtain ⟨ms, vis, hpres, hlen⟩ := objectErrOrigin f fields _ q ops hob
        exact ⟨0, fields, by simp, ms, vis, hpres, hlen⟩
      | ok u =>
        rw [hob] at h
        simp only [] at h
        obtain ⟨j, fields2, hget, ms, vis, hpres, hlen⟩ :=
          operandErrOrigin f vs p op (i + 1) q ops h
        refine ⟨j + 1, fields2, by simpa using hget, ms, ?_, hpres, hlen⟩
        rw [show i + (j + 1) = i + 1 + j from by omega]
        exact vis

/-- `treeErrOrigin`, through the operator-free member walk. -/
theorem walkErrOrigin : ∀ (f : Nat) (l : List (String × Json)) (p : String)
    (q : String) (ops : List String),
    validateFieldsWalk f l p = .error (.multipleOperators q ops) →
    ∃ (k : String) (w : Json), (k, w) ∈ l ∧
      ∃ ms, Visits w (p ++ "." ++ k) (.obj ms) q ∧
        presentOps ms = ops ∧ 2 ≤ ops.length
  | 0, l, p, q, ops, h => Except.noConfusion h
  | f + 1, [], p, q, ops, h => Except.noConfusion h
  | f + 1, (k0, v0) :: tl, p, q, ops, h => by
    simp only [validateFieldsWalk] at h
    cases htv : validateConditionTree f v0 (p ++ "." ++ k0) with
    | error e =>
      rw [htv] at h
      try simp only [] at h
      injection h with h2
      subst h2
      obtain ⟨ms, vis, hpres, hlen⟩ := treeErrOrigin f v0 _ q ops htv
      exact ⟨k0, v0, List.mem_cons_self _ _, ms, vis, hpres, hlen⟩
    | ok u =>
      rw [htv] at h
      simp only [] at h
      obtain ⟨k, w, hmem, ms, vis, hpres, hlen⟩ := walkErrOrigin f tl p q ops h
      exact ⟨k, w, List.mem_cons_of_mem _ hmem, ms, vis, hpres, hlen⟩

/-- `treeErrOrigin`, through one condition-object step. -/
theorem objectErrOrigin : ∀ (f : Nat) (ms : List (String × Json)) (p : String)
    (q : String) (ops : List String),
    validateConditionObject f ms p = .error (.multipleOperators q ops) →
    ∃ ms2, Visits (.obj ms) p (.obj ms2) q ∧ presentOps ms2 = ops ∧ 2 ≤ ops.length
  | 0, ms, p, q, ops, h => Except.noConfusion h
  | f + 1, ms, p, q, ops, h => by
    rw [validateConditionObject_succ] at h
    rcases hp : presentOps ms with _ | ⟨op, _ | ⟨op2, rest2⟩⟩
    · rw [hp] at h
      simp only [] at h
      obtain ⟨k, w, hmem, ms2, vis, hpres, hlen⟩ := walkErrOrigin f ms p q ops h
      exact ⟨ms2, Visits_trans (Visits.objMember (Visits.refl _ _) hp hmem) vis,
        hpres, hlen⟩
    case cons.cons =>
      rw [hp] at h
      simp only [] at h
      injection h with h2
      injection h2 with hq hops
      subst hq
      refine ⟨ms, Visits.refl _ _, ?_, ?_⟩
      · rw [hp]
        exact hops
      · rw [← hops]
        simp
    · rw [hp] at h
      simp only [] at h
      cases hlk : lookupField ms op with
      | none =>
        rw [hlk] at h
        try simp only [] at h
        exact Except.noConfusion h
      | some opVal =>
        rw [hlk] at h
        simp only [] at h
        by_cases hao : op = "and" ∨ op = "or"
        · rw [if_pos hao] at h
          match opVal, h with
          | .null, h => simp only [] at h; injection h with h2; cases h2
          | .bool _, h => simp only [] at h; injection h with h2; cases h2
          | .num _, h => simp only [] at h; injection h with h2; cases h2
          | .str _, h => simp only [] at h; injection h with h2; cases h2
          | .obj _, h => simp only [] at h; injection h with h2; cases h2
          | .arr es, h =>
            simp only [] at h
            by_cases hemp : es.isEmpty
            · rw [if_pos hemp] at h
              injection h with h2
              cases h2
            · rw [if_neg hemp] at h
              obtain ⟨j, fields, hget, ms2, vis, hpres, hlen⟩ :=
                operandErrOrigin f es p op 0 q ops h
              refine ⟨ms2,
                Visits_trans (Visits.objAndOr (Visits.refl _ _) hp hao hlk hget) ?_,
                hpres, hlen⟩
              rw [show (0 : Nat) + j = j from by omega] at vis
              exact vis
        · rw [if_neg hao] at h
          by_cases hnot : op = "not"
          · rw [if_pos hnot] at h
            subst hnot
            match opVal, h, hlk with
            | .null, h, hlk => simp only [] at h; injection h with h2; cases h2
            | .bool _, h, hlk => simp only [] at h; injection h with h2; cases h2
            | .num _, h, hlk => simp only [] at h; injection h with h2; cases h2
            | .str _, h, hlk => simp only [] at h; injection h with h2; cases h2
            | .arr _, h, hlk => simp only [] at h; injection h with h2; cases h2
            | .obj fields, h, hlk =>
              simp only [] at h
              obtain ⟨ms2, vis, hpres, hlen⟩ :=
                objectErrOrigin f fields (p ++ ".not") q ops h
              exact ⟨ms2, Visits_trans (Visits.objNot (Visits.refl _ _) hp hlk) vis,
                hpres, hlen⟩
          · rw [if_neg hnot] at h
            match opVal, h with
            | .null, h => simp only [] at h; injection h with h2; cases h2
            | .bool _, h => simp only [] at h; injection h with h2; cases h2
            | .num _, h => simp only [] at h; injection h with h2; cases h2
            | .str _, h => simp only [] at h; injection h with h2; cases h2
            | .arr _, h => simp only [] at h; injection h with h2; cases h2
            | .obj _, h => simp only [] at h; exact Except.noConfusion h

end

/-- **C3, amended.** Operator-key exclusivity holds exactly on the nodes
the validator walks, and the multiple-operators diagnostic is faithful:
(i) for every accepted definition, every object node reachable by the walk
relation `Visits` from the parsed root (arrays element-wise;
operator-free objects member-wise; `and`/`or` through their array
elements; `not` through its object — but never the siblings of an
operator key, nor the inside of a `field` value) carries at most one of
the operator keys `and`/`or`/`not`/`field`; and (ii) whenever validation
rejects with the multiple-operators error, that error originates at a
visited node: the walk reaches an object node at the error's dot/bracket
path whose operator-key set is exactly the two or more keys the error
names, and the error message spells out those keys and that path. -/
theorem c3_visited_exclusivity_and_diag {text : String} {root : Json}
    (hp : parseDoc text = some root) :
    (validateAuditLogFilterDefinition text = .ok () →
      ∀ (ms : List (String × Json)) (q : String),
        Visits root "$" (.obj ms) q → (presentOps ms).length ≤ 1) ∧
    (∀ (q : String) (ops : List String),
      validateAuditLogFilterDefinition text
          = .error (.conditionWalk (.multipleOperators q ops)) →
      (∃ ms, Visits root "$" (.obj ms) q ∧ presentOps ms = ops ∧ 2 ≤ ops.length) ∧
      valErrMessage (.conditionWalk (.multipleOperators q ops))
        = "the filter definition must follow MySQL logical condition structure: "
          ++ (q ++ " contains multiple logical operators ("
            ++ String.intercalate ", " ops
            ++ "); each condition object must contain exactly one of and, or, not, field")) := by
  constructor
  · intro hok ms q hvis
    have ht := validate_ok_tree hp hok
    have hw := visits_ok hvis ht
    have hobj : validateConditionObject (jsonSize (Json.obj ms)) ms q = .ok () := hw
    obtain ⟨f2, hf2⟩ : ∃ f2, jsonSize (Json.obj ms) = f2 + 1 :=
      ⟨jsonSize (Json.obj ms) - 1, by simp only [jsonSize]; omega⟩
    rw [hf2] at hobj
    exact (objectOk_dispatch f2 ms q (by simp only [jsonSize] at hf2; omega) hobj).1
  · intro q ops herr
    have htree := validate_err_inv hp herr
    unfold validateTree at htree
    exact ⟨treeErrOrigin _ root "$" q ops htree, rfl⟩

/-- Closed instance of the amended C3: an accepted definition with a
visited exclusive node, and a rejected one whose multiple-operators error
is traced back to the visited `$.filter` node carrying `and` and `or`. -/
theorem c3_witness :
    parseDoc "\x7b\"filter\":\x7b\x7d\x7d" = some (Json.obj [("filter", Json.obj [])]) ∧
    validateAuditLogFilterDefinition "\x7b\"filter\":\x7b\x7d\x7d" = .ok () ∧
    (presentOps [("filter", Json.obj [])]).length ≤ 1 ∧
    validateAuditLogFilterDefinition "\x7b\"filter\":\x7b\"and\":[],\"or\":[]\x7d\x7d"
      = .error (.conditionWalk (.multipleOperators "$.filter" ["and", "or"])) ∧
    (∃ ms, Visits
        (Json.obj [("filter", Json.obj [("and", Json.arr []), ("or", Json.arr [])])])
        "$" (Json.obj ms) "$.filter" ∧
      presentOps ms = ["and", "or"] ∧ 2 ≤ (["and", "or"] : List String).length) :=
  have hp1 : parseDoc "\x7b\"filter\":\x7b\x7d\x7d"
      = some (Json.obj [("filter", Json.obj [])]) := rfl
  have hv1 : validateAuditLogFilterDefinition "\x7b\"filter\":\x7b\x7d\x7d" = .ok () := rfl
  have hp2 : parseDoc "\x7b\"filter\":\x7b\"and\":[],\"or\":[]\x7d\x7d"
      = some (Json.obj [("filter", Json.obj [("and", Json.arr []), ("or", Json.arr [])])]) :=
    rfl
  have he2 : validateAuditLogFilterDefinition "\x7b\"filter\":\x7b\"and\":[],\"or\":[]\x7d\x7d"
      = .error (.conditionWalk (.multipleOperators "$.filter" ["and", "or"])) := rfl
  ⟨hp1, hv1,
    (c3_visited_exclusivity_and_diag hp1).1 hv1 [("filter", Json.obj [])] "$"
      (Visits.refl (Json.obj [("filter", Json.obj [])]) "$"),
    he2,
    ((c3_visited_exclusivity_and_diag hp2).2 "$.filter" ["and", "or"] he2).1⟩

end AuditFilter
